import Mathlib

/-!
Verification development for the `utc` CLI's Conditional Multi-Target Build &
Package-Export Synthesizer (`src/commands/build.ts`, `src/shared.ts`).

The TypeScript source is shallowly embedded: JS strings become `String`,
JS arrays become `List`, JS objects (whose string keys are unique and keep
insertion order) become association lists `List (String × _)` with a
replace-in-place `jset` mirroring JS property assignment, and `undefined`
becomes `Option`.  Node's posix path arithmetic (`relative`, `dirname`,
`join`) is modelled as pure functions over `/`-separated strings with the
working directory fixed to `/`.  All definitions are executable and use
structural recursion so that concrete runs evaluate inside the kernel.
-/

/-! ## Basic character-list and string helpers -/

/-- Splits a character list at every occurrence of `c`, keeping empty parts;
model of JS `String.prototype.split` with a single-character separator. -/
def chSplit (c : Char) : List Char → List (List Char)
  | [] => [[]]
  | a :: rest =>
      let r := chSplit c rest
      if a = c then [] :: r
      else match r with
        | [] => [[a]]
        | h :: t => (a :: h) :: t

/-- Tests whether `p` is a leading segment of `l`. -/
def isPre : List Char → List Char → Bool
  | [], _ => true
  | _ :: _, [] => false
  | a :: as, b :: bs => a = b && isPre as bs

/-- Tests whether `p` is a trailing segment of `l`. -/
def isSuf (p l : List Char) : Bool :=
  isPre p.reverse l.reverse

/-- Model of JS `String.prototype.endsWith`. -/
def endsWithStr (s suffix : String) : Bool :=
  isSuf suffix.data s.data

/-- Model of JS `String.prototype.startsWith`. -/
def startsWithStr (s pre : String) : Bool :=
  isPre pre.data s.data

/-- Splits a string on `/`, keeping empty parts (JS `split('/')`). -/
def splitSlash (s : String) : List String :=
  (chSplit '/' s.data).map (fun l => ⟨l⟩)

/-- Joins strings with `/` (JS `join('/')`). -/
def joinSlash : List String → String
  | [] => ""
  | [x] => x
  | x :: rest => x ++ "/" ++ joinSlash rest

/-- Lower-cases every character (JS `toLowerCase`, ASCII model). -/
def strToLower (s : String) : String :=
  ⟨s.data.map Char.toLower⟩

/-- Case-insensitive `endsWith` as produced by a `/…$/i` regular expression. -/
def endsWithCI (s suffix : String) : Bool :=
  endsWithStr (strToLower s) (strToLower suffix)

/-- Drops the first `n` characters of a string. -/
def strDrop (s : String) (n : Nat) : String :=
  ⟨s.data.drop n⟩

/-- Keeps the first `n` characters of a string. -/
def strTake (s : String) (n : Nat) : String :=
  ⟨s.data.take n⟩

/-- Length of a string in characters. -/
def strLen (s : String) : Nat :=
  s.data.length

/-! ## Association lists as JS objects / Maps -/

/-- JS object property read `o[k]` (keys are unique, first match wins). -/
def aget {β : Type} (l : List (String × β)) (k : String) : Option β :=
  match l with
  | [] => none
  | (k', v) :: rest => if k' = k then some v else aget rest k

/-- JS object property write `o[k] = v`: replaces the value in place when the
key is present (keeping its original position) and appends otherwise. -/
def jset {β : Type} (l : List (String × β)) (k : String) (v : β) : List (String × β) :=
  match l with
  | [] => [(k, v)]
  | (k', v') :: rest => if k' = k then (k', v) :: rest else (k', v') :: jset rest k v

/-! ## Node posix path model (working directory fixed to `/`) -/

/-- Collapses a raw segment list the way `path.resolve` does on an absolute
path: empty and `.` segments disappear and `..` pops the previous segment. -/
def normSegs (segs : List String) : List String :=
  segs.foldl
    (fun acc s =>
      if s = "" ∨ s = "." then acc
      else if s = ".." then acc.dropLast
      else acc ++ [s])
    []

/-- Segment form of `path.resolve p` with the working directory fixed to `/`:
both absolute and relative inputs resolve against the root. -/
def resolveSegs (p : String) : List String :=
  normSegs (splitSlash p)

/-- Length of the common leading run of two lists. -/
def commonLen : List String → List String → Nat
  | a :: as, b :: bs => if a = b then commonLen as bs + 1 else 0
  | _, _ => 0

/-- Model of node `path.relative(from, to)` (posix, working directory `/`). -/
def posixRelative (f t : String) : String :=
  let fs := resolveSegs f
  let ts := resolveSegs t
  let c := commonLen fs ts
  joinSlash (List.replicate (fs.length - c) ".." ++ ts.drop c)

/-- Model of node `path.dirname` (posix) on already-clean paths. -/
def dirname (p : String) : String :=
  let parts := splitSlash p
  let init := parts.dropLast
  if init = [] then "."
  else if init = [""] then "/"
  else joinSlash init

/-- `normalizeMatchPath` from `src/shared.ts`: the path relative to `basePath`
with `/` separators, `.` when they coincide, and the original path unchanged
when it lies outside `basePath`. -/
def normalizeMatchPath (filePath basePath : String) : String :=
  let rel0 := posixRelative basePath filePath
  let rel := if rel0 = "" then "." else rel0
  if startsWithStr rel ".." then filePath else rel

/-! ## Entry subpath computation (`toEntrySubPath`, `toEntrySubPathMap`) -/

/-- Modelled from the spec: the known script-extension set `scriptExts`
imported from the external `@meojs/cfgs` package (not part of this
repository).  Section 4.3 of the spec describes it as the "known script
extension" list used for stripping entry-file extensions, with the longest
extension matched first; the set below covers the JS/TS extensions the build
pipeline classifies (`.ts .tsx .mts .cts .js .jsx .mjs .cjs`). -/
def scriptExts : List String :=
  ["ts", "tsx", "mts", "cts", "js", "jsx", "mjs", "cjs"]

/-- Stable insertion used by `stableSort`: `x` is placed before the first
element that is not strictly ordered before it. -/
def insertStable {α : Type} (lt : α → α → Bool) (x : α) : List α → List α
  | [] => [x]
  | y :: ys => if lt y x then y :: insertStable lt x ys else x :: y :: ys

/-- Stable sort, modelling JS `Array.prototype.sort` with a consistent
comparator (the ECMAScript spec requires the sort to be stable). -/
def stableSort {α : Type} (lt : α → α → Bool) : List α → List α
  | [] => []
  | x :: xs => insertStable lt x (stableSort lt xs)

/-- The `sortedExts` list inside `toEntrySubPath`: `scriptExts` sorted by
descending length (`(a, b) => b.length - a.length`). -/
def sortedScriptExts : List String :=
  stableSort (fun a b => strLen b < strLen a) scriptExts

/-- Strips the first matching script extension, longest first, mirroring the
`for (const ext of sortedExts)` loop in `toEntrySubPath`. -/
def stripScriptExt (rel : String) : String :=
  go sortedScriptExts rel
where
  go : List String → String → String
    | [], r => r
    | ext :: rest, r =>
        if endsWithStr (strToLower r) ("." ++ strToLower ext) then
          strTake r (strLen r - (strLen ext + 1))
        else go rest r

/-- The `replace(/(^|\/)index$/i, '$1')` step: removes a trailing `index`
component (case-insensitive) while keeping the slash before it. -/
def stripIndex (rel : String) : String :=
  if strToLower rel = "index" then ""
  else if endsWithStr (strToLower rel) "/index" then strTake rel (strLen rel - 5)
  else rel

/-- Strips a single trailing `/` (the `replace(/\/$/, '')` step). -/
def stripOneTrailingSlash (s : String) : String :=
  if endsWithStr s "/" then strTake s (strLen s - 1) else s

/-- `toEntrySubPath` from `src/commands/build.ts`: the canonical export
subpath of `path` relative to the common root `root`. -/
def toEntrySubPath (root path : String) : String :=
  let rel0 := normalizeMatchPath path root
  let rel1 := if rel0 = "." then "" else rel0
  let rel2 := stripScriptExt rel1
  let rel3 := stripOneTrailingSlash (stripIndex rel2)
  if rel3 = "" then "."
  else if startsWithStr rel3 "." then rel3
  else "./" ++ rel3

/-- Strips one leading and one trailing quote character, mirroring
`sub.replace(/^['"`]|['"`]$/g, '')` in `toEntrySubPathMap`. -/
def stripQuotes (s : String) : String :=
  let isQuote : Char → Bool := fun c => c = '\'' || c = '"' || c = '`'
  let l1 : List Char := match s.data with
    | c :: rest => if isQuote c then rest else s.data
    | [] => []
  let l2 : List Char := match l1.reverse with
    | c :: rest => if isQuote c then rest.reverse else l1
    | [] => []
  ⟨l2⟩

/-- Drops every leading `/` (the `replace(/^\/+/, '')` step). -/
def dropLeadingSlashes (s : String) : String :=
  ⟨s.data.dropWhile (fun c => c = '/')⟩

/-- Normalization of a raw `@modulePath` annotation token inside
`toEntrySubPathMap`.  The surrounding `try`/`catch` swallows the validation
throw, so a token that fails the final `./` check leaves `custom` undefined;
this is modelled by returning `none`. -/
def parseModulePath : Option String → Option String
  | none => none
  | some raw =>
      let sub0 := stripQuotes raw
      let sub1 :=
        if sub0 = "" ∨ sub0 = "." ∨ sub0 = "./" ∨ sub0 = "./." then "."
        else if startsWithStr sub0 "./" then sub0
        else "./" ++ dropLeadingSlashes sub0
      let sub2 := stripOneTrailingSlash sub1
      let sub3 := if sub2 = "./." then "." else sub2
      if sub3 ≠ "." ∧ ¬ startsWithStr sub3 "./" then none else some sub3

/-- Longest common leading segment run, limited by the first list, exactly as
the `for (let i = 0;;)` loop in `toEntrySubPathMap` computes it. -/
def commonPrefixAll : List String → List (List String) → List String
  | [], _ => []
  | s :: rest, others =>
      if others.all (fun o => o.head? = some s) then
        s :: commonPrefixAll rest (others.map (·.tail))
      else []

/-- The common root directory computed by `toEntrySubPathMap`: the containing
directory for a single file, otherwise the common leading segments of all
normalized files (falling back to the project root when that is empty). -/
def computeRoot (normFiles : List String) (projectRoot : String) : String :=
  match normFiles with
  | [f] => dirname f
  | fs =>
      let segsList := fs.map splitSlash
      let common :=
        match segsList with
        | [] => []
        | ref :: others => commonPrefixAll ref others
      let joined := joinSlash common
      if joined = "" then projectRoot else joined

/-- The data of the fatal subpath-collision error thrown by
`toEntrySubPathMap` (`子路径冲突: '<subPath>' 同时由 '<file1>' 与 '<file2>' 定义。`):
the conflicting subpath and the two files that both claim it. -/
structure SubPathConflict where
  subPath : String
  file1 : String
  file2 : String
deriving DecidableEq, Repr

/-- One input file to entry resolution: its (already normalized) path and the
raw `@modulePath` token extracted from its leading doc comment, if any. -/
abbrev EntryInput := String × Option String

/-- The final subpath of an entry input: its parsed `@modulePath` override
when present, else the automatic subpath. -/
def finalSubPath (root : String) (e : EntryInput) : String :=
  (parseModulePath e.2).getD (toEntrySubPath root e.1)

/-- The per-file loop of `toEntrySubPathMap`: threads the `customPathSet`
map, fails on the first collision between two different files, and otherwise
returns the `(final, file)` pairs in input order.  The `existed ≠ ""` test
mirrors the JS truthiness of `existed && existed !== file`. -/
def buildModules (root : String) : List EntryInput → List (String × String) →
    Except SubPathConflict (List (String × String))
  | [], _ => .ok []
  | e :: rest, pathSet =>
      let final := finalSubPath root e
      match aget pathSet final with
      | some existed =>
          if existed ≠ "" ∧ existed ≠ e.1 then
            .error ⟨final, existed, e.1⟩
          else
            (buildModules root rest (jset pathSet final e.1)).map ((final, e.1) :: ·)
      | none =>
          (buildModules root rest (jset pathSet final e.1)).map ((final, e.1) :: ·)

/-- The `normalizedFiles` step of `toEntrySubPathMap`: every input path is
normalized against the project root (annotations are carried along). -/
def normalizedEntries (entries : List EntryInput) (projectRoot : String) : List EntryInput :=
  entries.map (fun e => (normalizeMatchPath e.1 projectRoot, e.2))

/-- The common `root` computed by `toEntrySubPathMap` for an entry list. -/
def entryRoot (entries : List EntryInput) (projectRoot : String) : String :=
  computeRoot ((normalizedEntries entries projectRoot).map (·.1)) projectRoot

/-- `toEntrySubPathMap` from `src/commands/build.ts`: normalizes the input
paths against the project root, computes the common root, resolves every
file's final subpath (override or automatic), fails fatally on a collision
between two different files, and finally builds the subpath → file object. -/
def toEntrySubPathMap (entries : List EntryInput) (projectRoot : String) :
    Except SubPathConflict (List (String × String)) :=
  if entries = [] then .ok []
  else
    (buildModules (entryRoot entries projectRoot) (normalizedEntries entries projectRoot) []).map
      (fun modules => modules.foldl (fun m kv => jset m kv.1 kv.2) [])

/-! ## Condition Algebra (`getConditionCombinations`) -/

/-- A condition value inside an active-conditions record: JS `string | boolean`. -/
inductive CondVal where
  | bool (b : Bool)
  | str (s : String)
deriving DecidableEq, Repr

/-- An active-conditions record `Record<string, string | boolean>`, as an
insertion-ordered association list (JS object keys are unique). -/
abbrev Combination := List (String × CondVal)

/-- The condition specification `string[] | Record<string, string[]> | undefined`
from the build configuration, resolved into a tagged variant.  A `grouped`
spec's group names are unique because they come from `Object.entries`. -/
inductive ConditionSpec where
  | undef
  | flat (labels : List String)
  | grouped (groups : List (String × List String))

/-- The recursive `generateCombinations` helper: extends the accumulated
combination with one label per remaining group, depth-first in label order. -/
def generateCombinations : List (String × List String) → Combination → List Combination
  | [], acc => [acc]
  | (name, labels) :: rest, acc =>
      labels.flatMap (fun c => generateCombinations rest (acc ++ [(name, CondVal.str c)]))

/-- `getConditionCombinations` from `src/commands/build.ts`: one build pass
per condition combination. -/
def getConditionCombinations : ConditionSpec → List Combination
  | .undef => [[]]
  | .flat labels => labels.map (fun c => [(c, CondVal.bool true)])
  | .grouped groups =>
      if groups.isEmpty then [[]]
      else generateCombinations groups []

/-- Threading an accumulated combination through `generateCombinations` just
prepends it to every produced combination. -/
theorem generateCombinations_acc (gs : List (String × List String)) (acc : Combination) :
    generateCombinations gs acc = (generateCombinations gs []).map (acc ++ ·) := by
  induction gs generalizing acc with
  | nil => simp [generateCombinations]
  | cons g rest ih =>
    obtain ⟨name, labels⟩ := g
    simp only [generateCombinations, List.map_flatMap]
    congr 1
    funext c
    rw [ih ((acc ++ [(name, CondVal.str c)])), ih ([] ++ [(name, CondVal.str c)]),
      List.map_map]
    congr 1
    funext x
    simp

/-- The grouped enumeration produces exactly the product of the group sizes. -/
theorem generateCombinations_length (gs : List (String × List String)) :
    (generateCombinations gs []).length = (gs.map (fun g => g.2.length)).prod := by
  induction gs with
  | nil => simp [generateCombinations]
  | cons g rest ih =>
    obtain ⟨name, labels⟩ := g
    simp only [generateCombinations, List.map_cons, List.prod_cons, List.length_flatMap]
    have h1 : ∀ c : String,
        (generateCombinations rest ([] ++ [(name, CondVal.str c)])).length
          = (generateCombinations rest []).length := by
      intro c
      rw [generateCombinations_acc]
      simp
    calc (List.map (List.length ∘ fun c =>
            generateCombinations rest ([] ++ [(name, CondVal.str c)])) labels).sum
        = (List.map (fun _ : String => (generateCombinations rest []).length) labels).sum := by
          congr 1
          exact List.map_congr_left (fun c _ => h1 c)
      _ = labels.length * (generateCombinations rest []).length := by
          rw [List.map_const', List.sum_replicate, smul_eq_mul]
      _ = labels.length * (rest.map (fun g => g.2.length)).prod := by rw [ih]

/-- Every produced combination is a total assignment: its keys are the group
names in declaration order and each value is a label of its group. -/
theorem generateCombinations_assignment (gs : List (String × List String)) :
    ∀ c ∈ generateCombinations gs [],
      List.Forall₂ (fun (p : String × CondVal) (g : String × List String) =>
        p.1 = g.1 ∧ ∃ label ∈ g.2, p.2 = CondVal.str label) c gs := by
  induction gs with
  | nil =>
    intro c hc
    simp only [generateCombinations, List.mem_singleton] at hc
    subst hc
    exact List.Forall₂.nil
  | cons g rest ih =>
    obtain ⟨name, labels⟩ := g
    intro c hc
    simp only [generateCombinations, List.mem_flatMap] at hc
    obtain ⟨lab, hlab, hc⟩ := hc
    rw [generateCombinations_acc] at hc
    simp only [List.mem_map] at hc
    obtain ⟨c', hc', rfl⟩ := hc
    exact List.Forall₂.cons ⟨rfl, lab, hlab, rfl⟩ (ih c' hc')

/-- When every group's label list is duplicate-free the produced combinations
are pairwise distinct. -/
theorem generateCombinations_nodup (gs : List (String × List String))
    (h : ∀ g ∈ gs, g.2.Nodup) :
    (generateCombinations gs []).Nodup := by
  induction gs with
  | nil => simp [generateCombinations]
  | cons g rest ih =>
    obtain ⟨name, labels⟩ := g
    have hrest : (generateCombinations rest []).Nodup :=
      ih (fun g hg => h g (List.mem_cons_of_mem _ hg))
    have hlab : labels.Nodup := h (name, labels) (List.mem_cons_self _ _)
    simp only [generateCombinations, List.flatMap_def]
    rw [List.nodup_flatten]
    constructor
    · intro l hl
      simp only [List.mem_map] at hl
      obtain ⟨c, _, rfl⟩ := hl
      rw [generateCombinations_acc]
      exact hrest.map (fun a b hab => by simpa using hab)
    · rw [List.pairwise_map]
      refine hlab.imp_of_mem ?_
      intro a b _ _ hab
      intro x hxa hxb
      rw [generateCombinations_acc] at hxa hxb
      simp only [List.mem_map] at hxa hxb
      obtain ⟨ca, _, rfl⟩ := hxa
      obtain ⟨cb, _, hcb⟩ := hxb
      simp only [List.nil_append, List.cons_append] at hcb
      cases hcb
      exact hab rfl

/-- The grouped branch of `getConditionCombinations` always agrees with the
plain recursion (the explicit `groups.length === 0` early return is redundant). -/
theorem getConditionCombinations_grouped (gs : List (String × List String)) :
    getConditionCombinations (.grouped gs) = generateCombinations gs [] := by
  cases gs <;> simp [getConditionCombinations, generateCombinations]

/-- C2: for a grouped spec with groups of sizes n₁…nₖ the enumeration returns
exactly n₁·…·nₖ combinations, each a distinct total assignment of one label
per group; combinations are ordered by group declaration order and then label
declaration order (the recurrence in the last conjunct); an undefined spec
yields one empty combination; a flat list yields one singleton boolean-true
combination per label in list order. -/
theorem c2_condition_combination_enumeration (groups : List (String × List String))
    (hnd : ∀ g ∈ groups, g.2.Nodup) :
    getConditionCombinations .undef = [[]]
    ∧ (∀ labels : List String,
        getConditionCombinations (.flat labels)
          = labels.map (fun c => [(c, CondVal.bool true)]))
    ∧ (getConditionCombinations (.grouped groups)).length
        = (groups.map (fun g => g.2.length)).prod
    ∧ (∀ c ∈ getConditionCombinations (.grouped groups),
        List.Forall₂ (fun (p : String × CondVal) (g : String × List String) =>
          p.1 = g.1 ∧ ∃ label ∈ g.2, p.2 = CondVal.str label) c groups)
    ∧ (getConditionCombinations (.grouped groups)).Nodup
    ∧ (∀ (name : String) (labels : List String) (gs : List (String × List String)),
        getConditionCombinations (.grouped ((name, labels) :: gs))
          = labels.flatMap (fun l =>
              (getConditionCombinations (.grouped gs)).map ((name, CondVal.str l) :: ·))) := by
  refine ⟨rfl, fun labels => rfl, ?_, ?_, ?_, ?_⟩
  · rw [getConditionCombinations_grouped]
    exact generateCombinations_length groups
  · rw [getConditionCombinations_grouped]
    exact generateCombinations_assignment groups
  · rw [getConditionCombinations_grouped]
    exact generateCombinations_nodup groups hnd
  · intro name labels gs
    rw [getConditionCombinations_grouped, getConditionCombinations_grouped]
    simp only [generateCombinations]
    congr 1
    funext l
    rw [generateCombinations_acc]
    rfl

/-- Witness for C2 at a concrete two-group spec: 2 × 2 distinct combinations. -/
theorem c2_condition_combination_enumeration_witness :
    (getConditionCombinations
        (.grouped [("env", ["cocos", "node"]), ("platform", ["ios", "android"])])).length = 4
    ∧ (getConditionCombinations
        (.grouped [("env", ["cocos", "node"]), ("platform", ["ios", "android"])])).Nodup :=
  ⟨((c2_condition_combination_enumeration
      [("env", ["cocos", "node"]), ("platform", ["ios", "android"])]
      (by decide)).2.2.1).trans (by decide),
    (c2_condition_combination_enumeration
      [("env", ["cocos", "node"]), ("platform", ["ios", "android"])]
      (by decide)).2.2.2.2.1⟩

/-! ## Lemmas about the association-list object model -/

/-- Reading back a written key sees the new value; other keys are unchanged. -/
theorem aget_jset {β : Type} (l : List (String × β)) (k k' : String) (v : β) :
    aget (jset l k v) k' = if k = k' then some v else aget l k' := by
  induction l with
  | nil => simp [jset, aget]
  | cons p rest ih =>
    obtain ⟨k1, v1⟩ := p
    by_cases h1 : k1 = k
    · subst h1
      by_cases h2 : k1 = k'
      · subst h2; simp [jset, aget]
      · simp [jset, aget, h2]
    · by_cases h2 : k1 = k'
      · subst h2
        have h1' : k ≠ k1 := fun h => h1 h.symm
        simp [jset, aget, h1, h1']
      · simp [jset, aget, h1, h2, ih]

/-- Every pair of the written object is either an old pair or the new one. -/
theorem mem_jset {β : Type} (l : List (String × β)) (k : String) (v : β) :
    ∀ kv ∈ jset l k v, kv ∈ l ∨ kv = (k, v) := by
  induction l with
  | nil => intro kv hkv; simp [jset] at hkv; exact Or.inr hkv
  | cons p rest ih =>
    obtain ⟨k1, v1⟩ := p
    intro kv hkv
    by_cases h1 : k1 = k
    · subst h1
      simp only [jset, eq_self_iff_true, if_true, List.mem_cons] at hkv
      rcases hkv with h | h
      · exact Or.inr h
      · exact Or.inl (List.mem_cons_of_mem _ h)
    · simp only [jset, if_neg h1, List.mem_cons] at hkv
      rcases hkv with h | h
      · exact Or.inl (h ▸ List.mem_cons_self _ _)
      · rcases ih kv h with h' | h'
        · exact Or.inl (List.mem_cons_of_mem _ h')
        · exact Or.inr h'

/-- A successful read certifies membership. -/
theorem aget_mem {β : Type} (l : List (String × β)) (k : String) (v : β)
    (h : aget l k = some v) : (k, v) ∈ l := by
  induction l with
  | nil => simp [aget] at h
  | cons p rest ih =>
    obtain ⟨k1, v1⟩ := p
    by_cases h1 : k1 = k
    · subst h1
      simp [aget] at h
      subst h
      exact List.mem_cons_self _ _
    · simp [aget, h1] at h
      exact List.mem_cons_of_mem _ (ih h)

/-- A missing key was never read successfully. -/
theorem aget_none {β : Type} (l : List (String × β)) (k : String)
    (h : aget l k = none) : ∀ v, (k, v) ∉ l := by
  induction l with
  | nil => simp
  | cons p rest ih =>
    obtain ⟨k1, v1⟩ := p
    by_cases h1 : k1 = k
    · subst h1; simp [aget] at h
    · simp [aget, h1] at h
      intro v hv
      rcases List.mem_cons.mp hv with h' | h'
      · exact h1 (by injection h' with ha _; exact ha.symm)
      · exact ih h v h'

/-- The keys after a write: unchanged when present, appended when fresh. -/
theorem keys_jset {β : Type} (l : List (String × β)) (k : String) (v : β) :
    (jset l k v).map Prod.fst
      = if (aget l k).isSome then l.map Prod.fst else l.map Prod.fst ++ [k] := by
  induction l with
  | nil => simp [jset, aget]
  | cons p rest ih =>
    obtain ⟨k1, v1⟩ := p
    by_cases h1 : k1 = k <;> simp [jset, aget, h1, ih] <;> split <;> simp

/-- Writes preserve key uniqueness. -/
theorem keys_nodup_jset {β : Type} (l : List (String × β)) (k : String) (v : β)
    (h : (l.map Prod.fst).Nodup) : ((jset l k v).map Prod.fst).Nodup := by
  rw [keys_jset]
  rcases hk : aget l k with _ | w
  · simp only [hk, Option.isSome_none, Bool.false_eq_true, if_false, List.nodup_append]
    refine ⟨h, List.nodup_singleton _, ?_⟩
    intro a ha hb
    simp only [List.mem_singleton] at hb
    subst hb
    simp only [List.mem_map] at ha
    obtain ⟨⟨k', v'⟩, hm, hk'⟩ := ha
    cases hk'
    exact aget_none l k' hk v' hm
  · simp [hk, h]

/-- Folding writes over any starting object keeps keys unique. -/
theorem keys_nodup_foldl_jset {β : Type} (pairs : List (String × β)) :
    ∀ acc : List (String × β), (acc.map Prod.fst).Nodup →
      (((pairs.foldl (fun m kv => jset m kv.1 kv.2) acc)).map Prod.fst).Nodup := by
  induction pairs with
  | nil => intro acc h; simpa using h
  | cons p rest ih =>
    intro acc h
    exact ih (jset acc p.1 p.2) (keys_nodup_jset acc p.1 p.2 h)

/-- In an object with unique keys a key determines its value. -/
theorem keys_nodup_unique {β : Type} (m : List (String × β))
    (h : (m.map Prod.fst).Nodup) :
    ∀ (k : String) (v w : β), (k, v) ∈ m → (k, w) ∈ m → v = w := by
  induction m with
  | nil => simp
  | cons p rest ih =>
    obtain ⟨k1, v1⟩ := p
    intro k v w hv hw
    simp only [List.map_cons, List.nodup_cons, List.mem_map] at h
    rcases List.mem_cons.mp hv with h1 | h1 <;> rcases List.mem_cons.mp hw with h2 | h2
    · injection h1 with _ e1; injection h2 with _ e2; exact e1.trans e2.symm
    · injection h1 with e1 e1'
      exact absurd ⟨(k, w), h2, by simp [← e1]⟩ h.1
    · injection h2 with e2 e2'
      exact absurd ⟨(k, v), h1, by simp [← e2]⟩ h.1
    · exact ih h.2 k v w h1 h2

/-- The value the last write of a key left behind, if the key was written. -/
def findLastVal {β : Type} (pairs : List (String × β)) (k : String) : Option β :=
  match pairs with
  | [] => none
  | p :: rest =>
      match findLastVal rest k with
      | some v => some v
      | none => if p.1 = k then some p.2 else none

/-- A found last value comes from a pair of the list. -/
theorem findLastVal_mem {β : Type} (pairs : List (String × β)) (k : String) (v : β)
    (h : findLastVal pairs k = some v) : (k, v) ∈ pairs := by
  induction pairs with
  | nil => simp [findLastVal] at h
  | cons p rest ih =>
    simp only [findLastVal] at h
    rcases hr : findLastVal rest k with _ | w <;> rw [hr] at h
    · by_cases h1 : p.1 = k
      · simp only [h1, if_true] at h
        injection h with h
        subst h
        exact h1 ▸ List.mem_cons_self _ _
      · simp [h1] at h
    · injection h with h
      subst h
      exact List.mem_cons_of_mem _ (ih hr)

/-- When no write of the key happened, the key is absent from the pairs. -/
theorem findLastVal_none {β : Type} (pairs : List (String × β)) (k : String)
    (h : findLastVal pairs k = none) : ∀ v, (k, v) ∉ pairs := by
  induction pairs with
  | nil => simp
  | cons p rest ih =>
    simp only [findLastVal] at h
    rcases hr : findLastVal rest k with _ | w <;> rw [hr] at h
    · intro v hv
      rcases List.mem_cons.mp hv with h1 | h1
      · rw [← h1] at h; simp at h
      · exact ih hr v h1
    · exact absurd h (by simp)

/-- Reading the object built by folding writes sees the last written value,
falling back to the starting object. -/
theorem aget_foldl_jset {β : Type} (pairs : List (String × β)) (k : String) :
    ∀ acc : List (String × β),
      aget (pairs.foldl (fun m kv => jset m kv.1 kv.2) acc) k
        = (findLastVal pairs k).elim (aget acc k) some := by
  induction pairs with
  | nil => intro acc; simp [findLastVal]
  | cons p rest ih =>
    intro acc
    simp only [List.foldl_cons, findLastVal]
    rw [ih (jset acc p.1 p.2)]
    rcases hr : findLastVal rest k with _ | w
    · simp only [Option.elim, aget_jset]
      by_cases h1 : p.1 = k <;> simp [h1]
    · simp [Option.elim]

/-! ## Characterizing `buildModules` (collision detection) -/

/-- Mapping a success continuation does not change success. -/
theorem except_isOk_map {ε α β : Type} (f : α → β) (x : Except ε α) :
    (x.map f).isOk = x.isOk := by
  cases x <;> rfl

/-- Mapping a success continuation does not change the error. -/
theorem except_map_eq_error {ε α β : Type} (f : α → β) (x : Except ε α) (c : ε) :
    x.map f = .error c ↔ x = .error c := by
  cases x <;> simp [Except.map]

/-- Mapping a success continuation transforms the ok value. -/
theorem except_map_eq_ok {ε α β : Type} (f : α → β) (x : Except ε α) (m : β) :
    x.map f = .ok m ↔ ∃ a, x = .ok a ∧ m = f a := by
  cases x with
  | error e => simp [Except.map]
  | ok a => simp [Except.map, eq_comm]

/-- Effect of recording one file in the `customPathSet` on the
no-earlier-conflicting-file condition of a later file. -/
theorem cond_jset_iff (root : String) (e f : EntryInput) (pathSet : List (String × String))
    (hself : ∀ v, aget pathSet (finalSubPath root e) = some v → v = e.1) :
    (∀ v, aget (jset pathSet (finalSubPath root e) e.1) (finalSubPath root f) = some v → v = f.1)
      ↔ ((finalSubPath root e = finalSubPath root f → e.1 = f.1)
          ∧ ∀ v, aget pathSet (finalSubPath root f) = some v → v = f.1) := by
  by_cases hK : finalSubPath root e = finalSubPath root f
  · constructor
    · intro h
      have he1f1 : e.1 = f.1 := h e.1 (by rw [aget_jset, if_pos hK])
      refine ⟨fun _ => he1f1, fun v hv => ?_⟩
      exact (hself v (by rw [hK]; exact hv)).trans he1f1
    · rintro ⟨h1, _⟩ v hv
      rw [aget_jset, if_pos hK] at hv
      injection hv with hv
      rw [← hv]
      exact h1 hK
  · constructor
    · intro h
      refine ⟨fun hc => absurd hc hK, fun v hv => h v ?_⟩
      rw [aget_jset, if_neg hK]
      exact hv
    · rintro ⟨_, h2⟩ v hv
      rw [aget_jset, if_neg hK] at hv
      exact h2 v hv

/-- The per-file loop succeeds exactly when no two files of the remaining
list (or of the already-recorded map) claim the same final subpath with
different file paths.  The emptiness side conditions reflect that real file
paths are nonempty strings (JS truthiness of `existed`). -/
theorem buildModules_ok_iff (root : String) (files : List EntryInput)
    (pathSet : List (String × String))
    (hvals : ∀ kv ∈ pathSet, kv.2 ≠ "") (hfiles : ∀ f ∈ files, f.1 ≠ "") :
    (buildModules root files pathSet).isOk = true
      ↔ files.Pairwise (fun a b => finalSubPath root a = finalSubPath root b → a.1 = b.1)
        ∧ ∀ f ∈ files, ∀ v, aget pathSet (finalSubPath root f) = some v → v = f.1 := by
  induction files generalizing pathSet with
  | nil => simp [buildModules, Except.isOk, Except.toBool]
  | cons e rest ih =>
    have hfiles' : ∀ f ∈ rest, f.1 ≠ "" := fun f hf => hfiles f (List.mem_cons_of_mem _ hf)
    have hvals' : ∀ kv ∈ jset pathSet (finalSubPath root e) e.1, kv.2 ≠ "" := by
      intro kv hkv
      rcases mem_jset _ _ _ kv hkv with hm | hm
      · exact hvals kv hm
      · rw [hm]; exact hfiles e (List.mem_cons_self _ _)
    have hrec := ih (jset pathSet (finalSubPath root e) e.1) hvals' hfiles'
    rcases hag : aget pathSet (finalSubPath root e) with _ | existed
    · have hself : ∀ v, aget pathSet (finalSubPath root e) = some v → v = e.1 := by
        intro v hv; rw [hag] at hv; cases hv
      simp only [buildModules, hag, except_isOk_map]
      rw [hrec]
      simp only [List.pairwise_cons, List.forall_mem_cons, hself,
        fun f => cond_jset_iff root e f pathSet hself]
      constructor
      · rintro ⟨hp, hc⟩
        exact ⟨⟨fun f hf => ((hc f hf).1), hp⟩, ⟨hself, fun f hf => (hc f hf).2⟩⟩
      · rintro ⟨⟨hpe, hp⟩, _, hc⟩
        exact ⟨hp, fun f hf => ⟨hpe f hf, hc f hf⟩⟩
    · have hmem := aget_mem pathSet (finalSubPath root e) existed hag
      have hexne : existed ≠ "" := hvals (finalSubPath root e, existed) hmem
      by_cases hcol : existed ≠ "" ∧ existed ≠ e.1
      · -- collision: the error path
        simp only [buildModules, hag, if_pos hcol]
        constructor
        · intro h; cases h
        · rintro ⟨_, hc⟩
          exact absurd (hc e (List.mem_cons_self _ _) existed hag) hcol.2
      · have hex : existed = e.1 := by
          by_cases h : existed = e.1
          · exact h
          · exact absurd ⟨hexne, h⟩ hcol
        subst hex
        have hself : ∀ v, aget pathSet (finalSubPath root e) = some v → v = e.1 := by
          intro v hv; rw [hag] at hv; injection hv with hv; exact hv.symm
        simp only [buildModules, hag, if_neg hcol, except_isOk_map]
        rw [hrec]
        simp only [List.pairwise_cons, List.forall_mem_cons,
          fun f => cond_jset_iff root e f pathSet hself]
        constructor
        · rintro ⟨hp, hc⟩
          exact ⟨⟨fun f hf => ((hc f hf).1), hp⟩, ⟨hself, fun f hf => (hc f hf).2⟩⟩
        · rintro ⟨⟨hpe, hp⟩, _, hc⟩
          exact ⟨hp, fun f hf => ⟨hpe f hf, hc f hf⟩⟩

/-- A successful run returns exactly the (final subpath, file) pair of every
input file, in input order. -/
theorem buildModules_ok_eq (root : String) (files : List EntryInput) :
    ∀ (pathSet : List (String × String)) (m : List (String × String)),
      buildModules root files pathSet = .ok m →
      m = files.map (fun f => (finalSubPath root f, f.1)) := by
  induction files with
  | nil =>
    intro pathSet m hm
    simp only [buildModules] at hm
    injection hm with h
    exact h.symm
  | cons e rest ih =>
    intro pathSet m hm
    rcases hag : aget pathSet (finalSubPath root e) with _ | existed
    · simp only [buildModules, hag, except_map_eq_ok] at hm
      obtain ⟨ms, hms, rfl⟩ := hm
      rw [ih _ ms hms]
      rfl
    · by_cases hcol : existed ≠ "" ∧ existed ≠ e.1
      · simp only [buildModules, hag, if_pos hcol] at hm
        cases hm
      · simp only [buildModules, hag, if_neg hcol, except_map_eq_ok] at hm
        obtain ⟨ms, hms, rfl⟩ := hm
        rw [ih _ ms hms]
        rfl

/-- A collision error names two genuinely conflicting files: the two file
fields differ and both resolve — by explicit override or by the auto rule —
to the reported subpath, each originating from the input list or from the
already-recorded map. -/
theorem buildModules_error (root : String) (files : List EntryInput)
    (all : List EntryInput) :
    ∀ pathSet : List (String × String),
      (∀ kv ∈ pathSet, ∃ a ∈ all, a.1 = kv.2 ∧ finalSubPath root a = kv.1) →
      (∀ f ∈ files, f ∈ all) →
      ∀ c, buildModules root files pathSet = .error c →
        c.file1 ≠ c.file2
        ∧ (∃ a ∈ all, a.1 = c.file1 ∧ finalSubPath root a = c.subPath)
        ∧ (∃ b ∈ all, b.1 = c.file2 ∧ finalSubPath root b = c.subPath) := by
  induction files with
  | nil => intro pathSet _ _ c hc; simp [buildModules] at hc
  | cons e rest ih =>
    intro pathSet hps hsub c hc
    have hsub' : ∀ f ∈ rest, f ∈ all := fun f hf => hsub f (List.mem_cons_of_mem _ hf)
    have hps' : ∀ kv ∈ jset pathSet (finalSubPath root e) e.1,
        ∃ a ∈ all, a.1 = kv.2 ∧ finalSubPath root a = kv.1 := by
      intro kv hkv
      rcases mem_jset _ _ _ kv hkv with hm | hm
      · exact hps kv hm
      · subst hm; exact ⟨e, hsub e (List.mem_cons_self _ _), rfl, rfl⟩
    rcases hag : aget pathSet (finalSubPath root e) with _ | existed
    · simp only [buildModules, hag, except_map_eq_error] at hc
      exact ih _ hps' hsub' c hc
    · by_cases hcol : existed ≠ "" ∧ existed ≠ e.1
      · simp only [buildModules, hag, if_pos hcol] at hc
        injection hc with hc
        subst hc
        refine ⟨fun h => hcol.2 h, ?_, ?_⟩
        · exact hps (finalSubPath root e, existed) (aget_mem _ _ _ hag)
        · exact ⟨e, hsub e (List.mem_cons_self _ _), rfl, rfl⟩
      · simp only [buildModules, hag, if_neg hcol, except_map_eq_error] at hc
        exact ih _ hps' hsub' c hc

/-- C3: `toEntrySubPathMap` succeeds exactly when no two distinct normalized
files resolve — by explicit override or by the auto rule — to the same final
subpath; a thrown conflict names two distinct files that both resolve to the
reported subpath; and a returned map never associates one subpath with two
different files.  The hypothesis records that real file paths are nonempty
strings (the code tests JS truthiness of the recorded path). -/
theorem c3_subpath_collision_detection (entries : List EntryInput) (projectRoot : String)
    (hne : ∀ e ∈ normalizedEntries entries projectRoot, e.1 ≠ "") :
    ((toEntrySubPathMap entries projectRoot).isOk = true
      ↔ (normalizedEntries entries projectRoot).Pairwise
          (fun a b => finalSubPath (entryRoot entries projectRoot) a
              = finalSubPath (entryRoot entries projectRoot) b → a.1 = b.1))
    ∧ (∀ c, toEntrySubPathMap entries projectRoot = .error c →
        c.file1 ≠ c.file2
        ∧ (∃ a ∈ normalizedEntries entries projectRoot,
            a.1 = c.file1 ∧ finalSubPath (entryRoot entries projectRoot) a = c.subPath)
        ∧ (∃ b ∈ normalizedEntries entries projectRoot,
            b.1 = c.file2 ∧ finalSubPath (entryRoot entries projectRoot) b = c.subPath))
    ∧ (∀ m, toEntrySubPathMap entries projectRoot = .ok m →
        ∀ (k v w : String), (k, v) ∈ m → (k, w) ∈ m → v = w) := by
  by_cases hemp : entries = []
  · subst hemp
    refine ⟨?_, ?_, ?_⟩
    · simp [toEntrySubPathMap, normalizedEntries, Except.isOk, Except.toBool]
    · intro c hc; simp [toEntrySubPathMap] at hc
    · intro m hm
      simp only [toEntrySubPathMap, if_pos rfl] at hm
      injection hm with hm
      subst hm
      simp
  · have hmap : toEntrySubPathMap entries projectRoot
        = (buildModules (entryRoot entries projectRoot)
            (normalizedEntries entries projectRoot) []).map
          (fun modules => modules.foldl (fun m kv => jset m kv.1 kv.2) []) := by
      simp [toEntrySubPathMap, hemp]
    refine ⟨?_, ?_, ?_⟩
    · rw [hmap, except_isOk_map]
      rw [buildModules_ok_iff _ _ [] (by simp) hne]
      simp [aget]
    · intro c hc
      rw [hmap, except_map_eq_error] at hc
      exact buildModules_error _ _ (normalizedEntries entries projectRoot) []
        (by simp) (fun f hf => hf) c hc
    · intro m hm
      rw [hmap, except_map_eq_ok] at hm
      obtain ⟨modules, _, rfl⟩ := hm
      exact keys_nodup_unique _ (keys_nodup_foldl_jset modules [] (by simp))

/-- Witness for C3: two distinct sources with distinct subpaths resolve
successfully. -/
theorem c3_subpath_collision_detection_witness :
    (toEntrySubPathMap [("/p/src/a.ts", none), ("/p/src/b.ts", none)] "/p").isOk = true :=
  (c3_subpath_collision_detection [("/p/src/a.ts", none), ("/p/src/b.ts", none)] "/p"
    (by decide)).1.mpr (by decide)

/-- C6 (amended): the round-trip holds for every file without an explicit
`@modulePath` override: on a successful `toEntrySubPathMap` run, looking up
the automatic subpath of a normalized file returns exactly that file.  (With
an override the file is registered under the override, not under its
automatic subpath — see the counterexample.) -/
theorem c6_roundtrip_amended (entries : List EntryInput) (projectRoot : String)
    (e : EntryInput) (he : e ∈ normalizedEntries entries projectRoot)
    (hcustom : parseModulePath e.2 = none)
    (m : List (String × String))
    (hok : toEntrySubPathMap entries projectRoot = .ok m)
    (hne : ∀ f ∈ normalizedEntries entries projectRoot, f.1 ≠ "") :
    aget m (toEntrySubPath (entryRoot entries projectRoot) e.1) = some e.1 := by
  have hemp : entries ≠ [] := by
    intro h
    subst h
    simp [normalizedEntries] at he
  have hmap : toEntrySubPathMap entries projectRoot
      = (buildModules (entryRoot entries projectRoot)
          (normalizedEntries entries projectRoot) []).map
        (fun modules => modules.foldl (fun m kv => jset m kv.1 kv.2) []) := by
    simp [toEntrySubPathMap, hemp]
  rw [hmap, except_map_eq_ok] at hok
  obtain ⟨modules, hbm, rfl⟩ := hok
  have hmods := buildModules_ok_eq _ _ [] modules hbm
  subst hmods
  have hpw : (normalizedEntries entries projectRoot).Pairwise
      (fun a b => finalSubPath (entryRoot entries projectRoot) a
          = finalSubPath (entryRoot entries projectRoot) b → a.1 = b.1) :=
    ((buildModules_ok_iff (entryRoot entries projectRoot)
      (normalizedEntries entries projectRoot) [] (by simp) hne).mp
        (by rw [hbm]; rfl)).1
  have hfe : finalSubPath (entryRoot entries projectRoot) e
      = toEntrySubPath (entryRoot entries projectRoot) e.1 := by
    simp [finalSubPath, hcustom]
  rw [← hfe, aget_foldl_jset]
  rcases hfl : findLastVal ((normalizedEntries entries projectRoot).map
      (fun f => (finalSubPath (entryRoot entries projectRoot) f, f.1)))
      (finalSubPath (entryRoot entries projectRoot) e) with _ | w
  · exact absurd (List.mem_map_of_mem _ he) (findLastVal_none _ _ hfl e.1)
  · have hw := findLastVal_mem _ _ _ hfl
    simp only [List.mem_map] at hw
    obtain ⟨f, hf, hfw⟩ := hw
    injection hfw with h1 h2
    have hsym : Symmetric (fun a b : EntryInput =>
        finalSubPath (entryRoot entries projectRoot) a
          = finalSubPath (entryRoot entries projectRoot) b → a.1 = b.1) := by
      intro a b hab hba
      exact (hab hba.symm).symm
    by_cases hef : f = e
    · subst hef
      simp [Option.elim, ← h2]
    · have hfe1 : f.1 = e.1 := hpw.forall hsym hf he hef h1
      simp [Option.elim, ← h2, hfe1]

/-- Counterexample to C6 as stated: with explicit `@modulePath` overrides the
map succeeds, yet looking up the automatic subpath of `src/a.ts` (which
carries override `./b`) returns the other file `src/c.ts` (whose override is
`./a`), not `src/a.ts` itself. -/
theorem c6_roundtrip_counterexample :
    toEntrySubPathMap [("/p/src/a.ts", some "./b"), ("/p/src/c.ts", some "./a")] "/p"
        = .ok [("./b", "src/a.ts"), ("./a", "src/c.ts")]
    ∧ toEntrySubPath
        (entryRoot [("/p/src/a.ts", some "./b"), ("/p/src/c.ts", some "./a")] "/p")
        (normalizeMatchPath "/p/src/a.ts" "/p") = "./a"
    ∧ aget [("./b", "src/a.ts"), ("./a", "src/c.ts")] "./a" = some "src/c.ts"
    ∧ "src/c.ts" ≠ "src/a.ts" :=
  ⟨rfl, by decide, by decide, by decide⟩

/-- Witness for the amended C6 at a concrete override-free entry list. -/
theorem c6_roundtrip_amended_witness :
    aget [(".", "src/index.ts")]
      (toEntrySubPath (entryRoot [("/p/src/index.ts", none)] "/p")
        (normalizeMatchPath "/p/src/index.ts" "/p")) = some "src/index.ts" :=
  c6_roundtrip_amended [("/p/src/index.ts", none)] "/p"
    ("src/index.ts", none) (by decide) rfl
    [(".", "src/index.ts")] rfl (by decide)

/-! ## Entry selection (`getEntry`) -/

/-- The `config.web.build.entry` setting: a single path, a path list, or
undefined (modelled by `Option`). -/
inductive EntrySetting where
  | str (s : String)
  | arr (l : List String)

/-- JS truthiness of the entry setting: `undefined` and the empty string are
falsy; every array (even empty) is truthy. -/
def entrySettingTruthy : Option EntrySetting → Bool
  | none => false
  | some (.str s) => s ≠ ""
  | some (.arr _) => true

/-- The entry-list part of `getEntry` from `src/commands/build.ts`:
an explicit (truthy) entry setting wins, otherwise the scanned root modules
are used, and an empty result falls back to `./src/index.ts`. -/
def getEntry (explicitEntry : Option EntrySetting) (scannedRoots : List String) : List String :=
  let entry :=
    if entrySettingTruthy explicitEntry then
      match explicitEntry with
      | some (.str s) => [s]
      | some (.arr l) => l
      | none => scannedRoots
    else scannedRoots
  if entry.length = 0 then entry ++ ["./src/index.ts"] else entry

/-- C10: with no explicit entry setting and zero scanned root modules,
`getEntry` returns the single fallback entry `./src/index.ts`; moreover the
entry list passed to the build is never empty for any inputs. -/
theorem c10_entry_fallback :
    getEntry none [] = ["./src/index.ts"]
    ∧ ∀ (explicitEntry : Option EntrySetting) (scannedRoots : List String),
        getEntry explicitEntry scannedRoots ≠ [] := by
  refine ⟨rfl, ?_⟩
  intro explicitEntry scannedRoots
  unfold getEntry
  set entry :=
    if entrySettingTruthy explicitEntry then
      match explicitEntry with
      | some (.str s) => [s]
      | some (.arr l) => l
      | none => scannedRoots
    else scannedRoots with hentry
  by_cases h : entry.length = 0
  · simp only [h, if_true]
    intro hc
    simp at hc
  · simp only [h, if_false]
    intro hc
    rw [hc] at h
    exact h rfl

/-! ## Module-resolution aliasing (`buildResolveConfig`, `getPermutations`) -/

/-- The active condition segments from `buildResolveConfig`: boolean-true
conditions contribute their key, string conditions their (nonempty) value;
`false` and `''` are filtered out. -/
def condSegments (active : Combination) : List String :=
  active.foldr
    (fun kv acc =>
      match kv.2 with
      | .bool true => kv.1 :: acc
      | .bool false => acc
      | .str s => if s = "" then acc else s :: acc)
    []

/-- All ways of picking one element of a list together with the remaining
elements (`arr[i]` and `arr.slice(0,i).concat(arr.slice(i+1))`), in index
order. -/
def permPick {α : Type} : List α → List (α × List α)
  | [] => []
  | x :: xs => (x, xs) :: (permPick xs).map (fun p => (p.1, x :: p.2))

/-- `getPermutations` from `src/shared.ts`: all length-`len` permutations of
distinct positions of `arr`, in the recursive first-position-major order the
source produces.  For `len = 0` the JS recursion bottoms out with no output. -/
def getPermutations {α : Type} : List α → Nat → List (List α)
  | _, 0 => []
  | arr, 1 => arr.map (fun x => [x])
  | arr, n + 2 =>
      (permPick arr).flatMap (fun p => (getPermutations p.2 (n + 1)).map (p.1 :: ·))

/-- JS `perm.join('.')`. -/
def joinDots : List String → String
  | [] => ""
  | [x] => x
  | x :: rest => x ++ "." ++ joinDots rest

/-- One file-suffix candidate: `'.' + perm.join('.')`. -/
def mkSuffix (perm : List String) : String :=
  "." ++ joinDots perm

/-- The descending length sequence `n, n-1, …, 1` of the
`for (let len = segments.length; len > 0; len--)` loop. -/
def rangeDown : Nat → List Nat
  | 0 => []
  | n + 1 => (n + 1) :: rangeDown n

/-- The suffix candidates grouped by permutation length, longest first. -/
def suffixBlocks (segments : List String) : List (List String) :=
  (rangeDown segments.length).map
    (fun len => (getPermutations segments len).map mkSuffix)

/-- First-occurrence deduplication with an explicit `seen` set, mirroring the
`seen : Set<string>` in `buildResolveConfig`. -/
def dedupAux (seen : List String) : List String → List String
  | [] => []
  | x :: xs => if x ∈ seen then dedupAux seen xs else x :: dedupAux (x :: seen) xs

/-- The deduplicated suffix candidate list of `buildResolveConfig`. -/
def suffixesOf (segments : List String) : List String :=
  dedupAux [] (suffixBlocks segments).flatten

/-- The JS/TS extension pairs driving `extensionAlias` construction. -/
def baseExtPairs : List (String × String) :=
  [("js", "ts"), ("mjs", "mts"), ("cjs", "cts"),
   ("jsx", "tsx"), ("mjsx", "mtsx"), ("cjsx", "ctsx")]

/-- The suffix-free `extensionAlias` returned when no condition is active. -/
def bareResolveAlias : List (String × List String) :=
  [(".js", [".js", ".ts"]), (".mjs", [".mjs", ".mts"]), (".cjs", [".cjs", ".cts"]),
   (".jsx", [".jsx", ".tsx"]), (".mjsx", [".mjsx", ".mtsx"]), (".cjsx", [".cjsx", ".ctsx"])]

/-- The suffix-free extension probe order. -/
def bareExtensions : List String :=
  [".tsx", ".ts", ".jsx", ".js", ".json"]

/-- The module-resolution options `buildResolveConfig` hands to the bundler. -/
structure ResolveConfig where
  extensionAlias : List (String × List String)
  extensions : List String
  conditionNames : Option (List String)

/-- `buildResolveConfig` from `src/shared.ts`: condition-label permutations
become file-suffix candidates, most specific first, appended before the bare
extensions. -/
def buildResolveConfig (active : Combination) : ResolveConfig :=
  let segments := condSegments active
  if segments = [] then
    { extensionAlias := bareResolveAlias
      extensions := bareExtensions
      conditionNames := none }
  else
    let suffixes := suffixesOf segments
    { extensionAlias := baseExtPairs.map (fun p =>
        ("." ++ p.1,
          (suffixes.flatMap (fun s => [s ++ "." ++ p.1, s ++ "." ++ p.2]))
            ++ ["." ++ p.1, "." ++ p.2]))
      extensions := (suffixes.flatMap (fun s =>
          [s ++ ".tsx", s ++ ".ts", s ++ ".jsx", s ++ ".js", s ++ ".json"]))
        ++ bareExtensions
      conditionNames := some (segments ++ ["..."]) }

/-- Number of `.` characters in a string: the specificity measure of a
file-suffix candidate (a suffix built from k labels contains k dots). -/
def dotCount (s : String) : Nat :=
  s.data.count '.'

/-- Dot counting distributes over appending. -/
theorem dotCount_append (a b : String) : dotCount (a ++ b) = dotCount a + dotCount b := by
  simp [dotCount, String.data_append, List.count_append]

/-- Joining k dot-free labels uses k−1 dots. -/
theorem dotCount_joinDots (perm : List String) (h : ∀ x ∈ perm, dotCount x = 0)
    (hne : perm ≠ []) : dotCount (joinDots perm) = perm.length - 1 := by
  induction perm with
  | nil => exact absurd rfl hne
  | cons x rest ih =>
    cases rest with
    | nil => simpa [joinDots] using h x (List.mem_cons_self _ _)
    | cons y r =>
      have hx := h x (List.mem_cons_self _ _)
      have hrest := ih (fun z hz => h z (List.mem_cons_of_mem _ hz)) (by simp)
      show dotCount (x ++ "." ++ joinDots (y :: r)) = (x :: y :: r).length - 1
      rw [dotCount_append, dotCount_append, hx, hrest]
      simp only [List.length_cons]
      have hdot : dotCount "." = 1 := rfl
      rw [hdot]
      omega

/-- A suffix built from a nonempty permutation of k dot-free labels contains
exactly k dots. -/
theorem dotCount_mkSuffix (perm : List String) (h : ∀ x ∈ perm, dotCount x = 0)
    (hne : perm ≠ []) : dotCount (mkSuffix perm) = perm.length := by
  have hlen : 1 ≤ perm.length := by
    cases perm
    · exact absurd rfl hne
    · simp
  rw [mkSuffix, dotCount_append, dotCount_joinDots perm h hne]
  show 1 + (perm.length - 1) = perm.length
  omega

/-- Each pick consists of an element of the list and remaining elements of
the list. -/
theorem permPick_mem {α : Type} (arr : List α) :
    ∀ p ∈ permPick arr, p.1 ∈ arr ∧ ∀ x ∈ p.2, x ∈ arr := by
  induction arr with
  | nil => simp [permPick]
  | cons a as ih =>
    intro p hp
    simp only [permPick, List.mem_cons, List.mem_map] at hp
    rcases hp with rfl | ⟨q, hq, rfl⟩
    · exact ⟨List.mem_cons_self _ _, fun x hx => List.mem_cons_of_mem _ hx⟩
    · obtain ⟨h1, h2⟩ := ih q hq
      refine ⟨List.mem_cons_of_mem _ h1, ?_⟩
      intro x hx
      rcases List.mem_cons.mp hx with rfl | hx'
      · exact List.mem_cons_self _ _
      · exact List.mem_cons_of_mem _ (h2 x hx')

/-- Every produced permutation has the requested length and draws its
elements from the input list. -/
theorem getPermutations_mem {α : Type} :
    ∀ (len : Nat) (arr : List α) (p : List α),
      p ∈ getPermutations arr len → p.length = len ∧ ∀ x ∈ p, x ∈ arr
  | 0, arr, p => by simp [getPermutations]
  | 1, arr, p => by
      intro hp
      simp only [getPermutations, List.mem_map] at hp
      obtain ⟨x, hx, rfl⟩ := hp
      exact ⟨rfl, by simpa using hx⟩
  | n + 2, arr, p => by
      intro hp
      simp only [getPermutations, List.mem_flatMap, List.mem_map] at hp
      obtain ⟨q, hq, r, hr, rfl⟩ := hp
      obtain ⟨hlen, hsub⟩ := getPermutations_mem (n + 1) q.2 r hr
      obtain ⟨hq1, hq2⟩ := permPick_mem arr q hq
      refine ⟨by simp [hlen], ?_⟩
      intro x hx
      rcases List.mem_cons.mp hx with rfl | hx'
      · exact hq1
      · exact hq2 x (hsub x hx')

/-- Membership in the descending length sequence. -/
theorem mem_rangeDown (n : Nat) : ∀ k, k ∈ rangeDown n ↔ 1 ≤ k ∧ k ≤ n := by
  induction n with
  | zero => intro k; simp [rangeDown]; omega
  | succ m ih =>
    intro k
    simp only [rangeDown, List.mem_cons, ih]
    omega

/-- The length sequence is strictly descending. -/
theorem rangeDown_pairwise (n : Nat) : (rangeDown n).Pairwise (fun a b => b < a) := by
  induction n with
  | zero => simp [rangeDown]
  | succ m ih =>
    simp only [rangeDown, List.pairwise_cons]
    refine ⟨fun b hb => ?_, ih⟩
    have := (mem_rangeDown m b).mp hb
    omega

/-- Every suffix of the length-`len` block has exactly `len` dots. -/
theorem mem_block_dotCount (segments : List String)
    (hclean : ∀ s ∈ segments, dotCount s = 0) (len : Nat)
    (hlen : 1 ≤ len) :
    ∀ s ∈ (getPermutations segments len).map mkSuffix, dotCount s = len := by
  intro s hs
  simp only [List.mem_map] at hs
  obtain ⟨p, hp, rfl⟩ := hs
  obtain ⟨hplen, hpsub⟩ := getPermutations_mem len segments p hp
  have hne : p ≠ [] := by
    intro h
    subst h
    simp at hplen
    omega
  rw [dotCount_mkSuffix p (fun x hx => hclean x (hpsub x hx)) hne, hplen]

/-- First-occurrence deduplication keeps a subsequence of its input. -/
theorem dedupAux_sublist (l : List String) :
    ∀ seen, (dedupAux seen l).Sublist l := by
  induction l with
  | nil => intro seen; simp [dedupAux]
  | cons x xs ih =>
    intro seen
    simp only [dedupAux]
    by_cases h : x ∈ seen
    · simp only [h, if_true]
      exact (ih seen).cons _
    · simp only [h, if_false]
      exact (ih (x :: seen)).cons₂ _

/-- Along the concatenated candidate blocks the dot count never increases. -/
theorem suffixBlocks_flatten_pairwise (segments : List String)
    (hclean : ∀ s ∈ segments, dotCount s = 0) :
    ((suffixBlocks segments).flatten).Pairwise (fun a b => dotCount b ≤ dotCount a) := by
  rw [List.pairwise_flatten]
  constructor
  · intro l hl
    simp only [suffixBlocks, List.mem_map] at hl
    obtain ⟨len, hlen, rfl⟩ := hl
    have h1 := ((mem_rangeDown _ len).mp hlen).1
    apply List.pairwise_of_forall_mem_list
    intro a ha b hb
    rw [mem_block_dotCount segments hclean len h1 a ha,
      mem_block_dotCount segments hclean len h1 b hb]
  · simp only [suffixBlocks, List.pairwise_map]
    refine (rangeDown_pairwise segments.length).imp_of_mem ?_
    intro a b ha hb hba x hx y hy
    have hxa := mem_block_dotCount segments hclean a
      ((mem_rangeDown _ a).mp ha).1 x hx
    have hyb := mem_block_dotCount segments hclean b
      ((mem_rangeDown _ b).mp hb).1 y hy
    omega

/-- C7: for a non-empty active label set, `buildResolveConfig` produces the
extension candidate list from the deduplicated label-permutation suffixes
followed by the bare extensions, and along the suffix list the number of
labels mentioned (dot count) never increases: every suffix built from k+1
labels precedes every suffix built from k labels, and every suffix is the
dot-join of a nonempty permutation of active labels.  Labels are assumed
dot-free so that "number of labels mentioned" is well defined. -/
theorem c7_suffix_candidates_most_specific_first (active : Combination)
    (hne : condSegments active ≠ [])
    (hclean : ∀ s ∈ condSegments active, dotCount s = 0) :
    (buildResolveConfig active).extensions
      = (suffixesOf (condSegments active)).flatMap
          (fun s => [s ++ ".tsx", s ++ ".ts", s ++ ".jsx", s ++ ".js", s ++ ".json"])
        ++ bareExtensions
    ∧ (suffixesOf (condSegments active)).Pairwise (fun a b => dotCount b ≤ dotCount a)
    ∧ (∀ s ∈ suffixesOf (condSegments active),
        ∃ perm, s = mkSuffix perm ∧ perm.length = dotCount s
          ∧ 1 ≤ perm.length ∧ perm.length ≤ (condSegments active).length
          ∧ ∀ x ∈ perm, x ∈ condSegments active) := by
  refine ⟨?_, ?_, ?_⟩
  · simp [buildResolveConfig, hne]
  · exact List.Pairwise.sublist (dedupAux_sublist _ [])
      (suffixBlocks_flatten_pairwise _ hclean)
  · intro s hs
    have hs' : s ∈ (suffixBlocks (condSegments active)).flatten :=
      List.Sublist.mem hs (dedupAux_sublist _ [])
    rw [List.mem_flatten] at hs'
    obtain ⟨l, hl, hsl⟩ := hs'
    simp only [suffixBlocks, List.mem_map] at hl
    obtain ⟨len, hlen, rfl⟩ := hl
    simp only [List.mem_map] at hsl
    obtain ⟨p, hp, rfl⟩ := hsl
    obtain ⟨hplen, hpsub⟩ := getPermutations_mem len _ p hp
    have hrange := (mem_rangeDown _ len).mp hlen
    have hpne : p ≠ [] := by
      intro h
      subst h
      simp at hplen
      omega
    refine ⟨p, rfl, ?_, ?_, ?_, hpsub⟩
    · rw [dotCount_mkSuffix p (fun x hx => hclean x (hpsub x hx)) hpne]
    · omega
    · rw [hplen]
      exact hrange.2

/-- Witness for C7 with both `ios` and `cocos` active: the suffix list is
ordered most specific first. -/
theorem c7_suffix_candidates_most_specific_first_witness :
    (suffixesOf (condSegments [("ios", CondVal.bool true), ("cocos", CondVal.bool true)])).Pairwise
      (fun a b => dotCount b ≤ dotCount a)
    ∧ (buildResolveConfig [("ios", CondVal.bool true), ("cocos", CondVal.bool true)]).extensions
      = (suffixesOf (condSegments [("ios", CondVal.bool true), ("cocos", CondVal.bool true)])).flatMap
          (fun s => [s ++ ".tsx", s ++ ".ts", s ++ ".jsx", s ++ ".js", s ++ ".json"])
        ++ bareExtensions :=
  ⟨(c7_suffix_candidates_most_specific_first
      [("ios", CondVal.bool true), ("cocos", CondVal.bool true)]
      (by decide) (by decide)).2.1,
    (c7_suffix_candidates_most_specific_first
      [("ios", CondVal.bool true), ("cocos", CondVal.bool true)]
      (by decide) (by decide)).1⟩

/-! ## JSON-like values and the output classifier -/

/-- A JSON-like value in the export tree: a path string or an object with
insertion-ordered unique keys (arrays never occur in produced exports). -/
inductive JVal where
  | str (s : String)
  | obj (fields : List (String × JVal))

/-- JS property access `v[k]` on a JSON value: reading a property of a
string value yields `undefined`. -/
def jgetJ : JVal → String → Option JVal
  | .str _, _ => none
  | .obj fs, k => aget fs k

/-- JS truthiness of a JSON value: only the empty string is falsy. -/
def truthyJ : JVal → Bool
  | .str s => s ≠ ""
  | .obj _ => true

/-- JS truthiness of an optional string (`undefined` and `''` are falsy):
returns the value when truthy, `undefined` otherwise. -/
def truthyOptS : Option String → Option String
  | none => none
  | some s => if s = "" then none else some s

/-- JSON string quoting (labels and paths contain no characters needing
escapes). -/
def quoteJson (s : String) : String :=
  "\"" ++ s ++ "\""

/-- Comma joining for serialized object members. -/
def joinComma : List String → String
  | [] => ""
  | [x] => x
  | x :: rest => x ++ "," ++ joinComma rest

/-- `JSON.stringify` of one condition value. -/
def serializeCondVal : CondVal → String
  | .bool true => "true"
  | .bool false => "false"
  | .str s => quoteJson s

/-- `JSON.stringify` of an active-conditions record, used as the accumulator
key tying every output file to its build pass. -/
def serializeCombination (c : Combination) : String :=
  "\x7b" ++ joinComma (c.map (fun kv => quoteJson kv.1 ++ ":" ++ serializeCondVal kv.2)) ++ "\x7d"

/-- One emitted chunk descriptor `{type, fileName, isEntry}`. -/
structure Chunk where
  ctype : String
  fileName : String
  isEntry : Bool

/-- The manifest of one build pass: the emitted chunk lists (one per internal
build phase, as `Object.values` of `TsdownChunks` iterates them), the active
conditions of the pass, and its output directory. -/
structure BuildResult where
  chunks : List (List Chunk)
  activeConditions : Combination
  outDir : String

/-- `replace(/^\.\//, '')`: strips one leading `./`. -/
def stripDotSlashOnce (s : String) : String :=
  if startsWithStr s "./" then strDrop s 2 else s

/-- Prepends `./` unless already present (`p.startsWith('./') ? p : './'+p`). -/
def ensureDotSlash (p : String) : String :=
  if startsWithStr p "./" then p else "./" ++ p

/-- The extension alternation of `getEntryName`'s
`\.(ts|tsx|js|jsx|mts|cts|mjs|cjs)$` regular expression. -/
def entryNameExts : List String :=
  ["ts", "tsx", "js", "jsx", "mts", "cts", "mjs", "cjs"]

/-- Strips the single script extension matched by `getEntryName`'s regular
expression (the matching alternative is unique because none is a suffix of
another behind a dot). -/
def stripOneScriptExt (s : String) : String :=
  match entryNameExts.find? (fun e => endsWithStr s ("." ++ e)) with
  | some e => strTake s (strLen s - (strLen e + 1))
  | none => s

/-- The last `/`-separated component (`split('/').pop()`). -/
def lastSegment (s : String) : String :=
  match (splitSlash s).getLast? with
  | some x => x
  | none => ""

/-- `getEntryName` from `src/commands/build.ts`: the base name of an entry
path without its script extension, `index` when empty. -/
def getEntryName (entryPath : String) : String :=
  let relativePath := stripDotSlashOnce entryPath
  let withoutExt := stripOneScriptExt relativePath
  let last := lastSegment withoutExt
  if last = "" then "index" else last

/-- The extension alternatives of the chunk-classification regular
expression `([^/]+?)(?:\.d)?\.(?:m?c?js|[cm]?ts)$`. -/
def chunkExtAlts : List String :=
  ["js", "cjs", "mjs", "mcjs", "ts", "cts", "mts"]

/-- Whether a segment remainder is a valid `(?:\.d)?\.ext` suffix. -/
def chunkSuffixOk (rest : String) : Bool :=
  chunkExtAlts.any (fun e => rest = "." ++ e || rest = ".d." ++ e)

/-- The lazy `[^/]+?` match: the shortest nonempty prefix of the final path
segment whose remainder is a valid declaration/script suffix. -/
def chunkBaseGo (pre : List Char) : List Char → Option (List Char)
  | [] => none
  | c :: rest =>
      let extended := pre ++ [c]
      if chunkSuffixOk ⟨rest⟩ then some extended
      else chunkBaseGo extended rest

/-- The captured base name of a chunk file name, when the classification
regular expression matches. -/
def chunkBase (fileName : String) : Option String :=
  (chunkBaseGo [] (lastSegment fileName).data).map (fun l => ⟨l⟩)

/-- One accumulated output file group, keyed by entry subpath and serialized
condition combination. -/
structure OutputGroup where
  entryPath : String
  condition : String
  files : List String

/-- The cross-pass accumulator map of the Output Classifier. -/
abbrev OutputMap := List (String × OutputGroup)

/-- JS `Set.add`: appends unless already present. -/
def setAdd (l : List String) (x : String) : List String :=
  if x ∈ l then l else l ++ [x]

/-- Model of node `path.join(outDir, fileName)` for clean relative inputs. -/
def joinPath (a b : String) : String :=
  if a = "" then b else a ++ "/" ++ b

/-- Records one output file under its `(entry, combination)` key, updating
an existing group in place or appending a fresh one (JS `Map` semantics). -/
def addOutputFile (m : OutputMap) (key entryPath condKey fullPath : String) : OutputMap :=
  match m with
  | [] => [(key, ⟨entryPath, condKey, [fullPath]⟩)]
  | (k, g) :: rest =>
      if k = key then (k, { g with files := setAdd g.files fullPath }) :: rest
      else (k, g) :: addOutputFile rest key entryPath condKey fullPath

/-- The base-name → normalized-entry-path map precomputed by
`collectOutputFiles` (later entries overwrite earlier ones of equal name). -/
def entryNameMap (entries : List String) : List (String × String) :=
  entries.foldl (fun m e => jset m (getEntryName e) (ensureDotSlash e)) []

/-- Classification of a single chunk into the accumulator. -/
def collectChunk (entryNames : List (String × String)) (conditionKey outDir : String)
    (m : OutputMap) (c : Chunk) : OutputMap :=
  if c.ctype ≠ "chunk" then m
  else
    match chunkBase c.fileName with
    | none => m
    | some base =>
        match aget entryNames base with
        | none => m
        | some entryPath =>
            addOutputFile m (entryPath ++ "-" ++ conditionKey) entryPath conditionKey
              (joinPath outDir c.fileName)

/-- `collectOutputFiles` from `src/commands/build.ts`: scans every build
result's chunk lists and groups matching files by (entry, combination). -/
def collectOutputFiles (entries : List String) (buildResults : List BuildResult) : OutputMap :=
  let entryNames := entryNameMap entries
  buildResults.foldl
    (fun m result =>
      result.chunks.foldl
        (fun m chunks =>
          chunks.foldl
            (collectChunk entryNames (serializeCombination result.activeConditions) result.outDir)
            m)
        m)
    []

/-! ## ExportEntry construction (`createExportEntryFromOutputs`) -/

/-- Declaration-file test `\.d\.(ts|mts|cts)$`. -/
def isDtsFile (f : String) : Bool :=
  endsWithStr f ".d.ts" || endsWithStr f ".d.mts" || endsWithStr f ".d.cts"

/-- The declaration priority rank used by the `dts.sort` comparator:
`.d.ts` before `.d.mts` before `.d.cts`. -/
def dtsRank (s : String) : Nat :=
  if endsWithStr s ".d.ts" then 0
  else if endsWithStr s ".d.mts" then 1
  else if endsWithStr s ".d.cts" then 2
  else 3

/-- The in-place stable `dts.sort((a, b) => rank(a) - rank(b))`. -/
def sortDts (l : List String) : List String :=
  stableSort (fun a b => dtsRank a < dtsRank b) l

/-- The classification loop of `createExportEntryFromOutputs`: each file
goes to the first matching bucket (declaration, `.mjs`, `.cjs`, plain `.js`),
keeping iteration order. -/
def classifyLoop : List String → List String × List String × List String × List String
  | [] => ([], [], [], [])
  | f :: rest =>
      let (dts, mjs, cjs, plainJs) := classifyLoop rest
      if isDtsFile f then (f :: dts, mjs, cjs, plainJs)
      else if endsWithStr f ".mjs" then (dts, f :: mjs, cjs, plainJs)
      else if endsWithStr f ".cjs" then (dts, mjs, f :: cjs, plainJs)
      else if endsWithStr f ".js" then (dts, mjs, cjs, f :: plainJs)
      else (dts, mjs, cjs, plainJs)

/-- `toExportPath`: ensures a `./` prefix on an emitted path. -/
def toExportPath (p : String) : String :=
  ensureDotSlash p

/-- `findOutputGroup`: accumulator lookup by normalized entry path and
serialized combination. -/
def findOutputGroup (outputFiles : OutputMap) (entryPath condition : String) :
    Option OutputGroup :=
  aget outputFiles (ensureDotSlash entryPath ++ "-" ++ condition)

/-- The suffix after the last occurrence of a pattern, if any (rightmost
match of the greedy `^.*dist\/`). -/
def afterLastOcc (pat : List Char) : List Char → Option (List Char)
  | [] => none
  | c :: rest =>
      match afterLastOcc pat rest with
      | some r => some r
      | none =>
          if isPre pat (c :: rest) then some ((c :: rest).drop pat.length)
          else none

/-- `candidate.replace(/^.*dist\//, '')`: everything after the last `dist/`,
or the string unchanged when it contains none. -/
def stripThroughDistSlash (s : String) : String :=
  match afterLastOcc "dist/".data s.data with
  | some r => ⟨r⟩
  | none => s

/-- The script-extension match `/(\.mjs|\.cjs|\.js)$/` (case-sensitive). -/
def scriptExtOf (script : String) : String :=
  if endsWithStr script ".mjs" then ".mjs"
  else if endsWithStr script ".cjs" then ".cjs"
  else if endsWithStr script ".js" then ".js"
  else ""

/-- `script.replace(/(\.mjs|\.cjs|\.js)$/, '')` (case-sensitive). -/
def stripScriptSuffix (s : String) : String :=
  if endsWithStr s ".mjs" then strTake s (strLen s - 4)
  else if endsWithStr s ".cjs" then strTake s (strLen s - 4)
  else if endsWithStr s ".js" then strTake s (strLen s - 3)
  else s

/-- The declaration-extension probe order of `pickTypesForScript`, driven by
the script's own extension and the package module type. -/
def rankOrderFor (scriptExt : String) (packageType : Option String) : List String :=
  if scriptExt = ".mjs" then [".d.mts", ".d.ts", ".d.cts"]
  else if scriptExt = ".cjs" then [".d.cts", ".d.ts", ".d.mts"]
  else if scriptExt = ".js" then
    if packageType = some "module" then [".d.ts", ".d.mts", ".d.cts"]
    else if packageType = some "commonjs" then [".d.cts", ".d.ts", ".d.mts"]
    else [".d.ts", ".d.cts", ".d.mts"]
  else [".d.ts", ".d.cts", ".d.mts"]

/-- The candidate probe loop of `pickTypesForScript`. -/
def pickTypesLoop (dts : List String) (root : String) : List String → Option String
  | [] => none
  | ext :: rest =>
      let candidate := root ++ ext
      match dts.find? (fun f =>
          endsWithStr f (stripThroughDistSlash candidate)
            || f = candidate || endsWithStr f candidate) with
      | some found => some (toExportPath found)
      | none => pickTypesLoop dts root rest

/-- `pickTypesForScript`: the branch-specific declaration for a script path,
falling back to the cross-compatible prioritized declaration. -/
def pickTypesForScript (dts : List String) (prioritizedDtsPath : Option String)
    (packageType : Option String) : Option String → Option String
  | none => none
  | some script =>
      match pickTypesLoop dts (stripScriptSuffix script)
          (rankOrderFor (scriptExtOf script) packageType) with
      | some t => some t
      | none => prioritizedDtsPath

/-- An optional object member, present only when the value exists. -/
def optField (k : String) : Option String → List (String × JVal)
  | some v => [(k, JVal.str v)]
  | none => []

/-- `withTypesFirst`: reorders an object so that its `types` member comes
first, keeping the relative order of the remaining members. -/
def withTypesFirst (fields : List (String × JVal)) : List (String × JVal) :=
  match aget fields "types" with
  | none => fields
  | some t => ("types", t) :: fields.filter (fun kv => kv.1 ≠ "types")

/-- `createExportEntryFromOutputs` from `src/commands/build.ts`: classifies
the file group of one (entry, combination) pair and selects the declaration,
ESM, CJS and default paths of its ExportEntry. -/
def createExportEntryFromOutputs (outputFiles : OutputMap) (entryPath condition : String)
    (packageType : Option String) (exportTypes : Bool) : List (String × JVal) :=
  match findOutputGroup outputFiles entryPath condition with
  | none => []
  | some group =>
      let (dts, mjs, cjs, plainJs) := classifyLoop group.files
      let sortedDts := sortDts dts
      let prioritizedDtsPath : Option String :=
        match sortedDts with
        | d :: _ => some (toExportPath d)
        | [] => none
      let imp : Option String :=
        match mjs with
        | m :: _ => some (toExportPath m)
        | [] =>
            match plainJs with
            | p :: _ => some (toExportPath p)
            | [] => none
      let req : Option String :=
        match cjs with
        | c :: _ => some (toExportPath c)
        | [] =>
            match plainJs with
            | p :: _ => some (toExportPath p)
            | [] => none
      if exportTypes then
        let importTypes :=
          if sortedDts ≠ [] then
            pickTypesForScript sortedDts prioritizedDtsPath packageType imp
          else none
        let requireTypes :=
          if sortedDts ≠ [] then
            pickTypesForScript sortedDts prioritizedDtsPath packageType req
          else none
        let importBranch := optField "default" imp
          ++ (match imp, importTypes with
              | some _, some t => [("types", JVal.str t)]
              | _, _ => [])
        let requireBranch := optField "default" req
          ++ (match req, requireTypes with
              | some _, some t => [("types", JVal.str t)]
              | _, _ => [])
        let importOrdered := withTypesFirst importBranch
        let requireOrdered := withTypesFirst requireBranch
        withTypesFirst
          ((if requireOrdered.isEmpty then [] else [("require", JVal.obj requireOrdered)])
            ++ (if importOrdered.isEmpty then [] else [("import", JVal.obj importOrdered)])
            ++ (if (aget importOrdered "default").isSome then
                  [("default", JVal.obj (withTypesFirst importOrdered))]
                else if (aget requireOrdered "default").isSome then
                  [("default", JVal.obj (withTypesFirst requireOrdered))]
                else []))
      else
        let dflt : Option String :=
          if packageType = some "commonjs" then
            match req with
            | some r => some r
            | none => imp
          else
            match imp with
            | some i => some i
            | none => req
        optField "import" imp ++ optField "require" req ++ optField "default" dflt

/-! ## Conditional export trees and the exports field -/

/-- `createSimpleConditionalExportFromOutputs`: one key per flat condition
label that produced output, plus a `default` key from the `default` label's
own build when declared, else from the unconditional group. -/
def createSimpleConditionalExportFromOutputs (outputFiles : OutputMap) (entryPath : String)
    (conditions : List String) (packageType : Option String) (exportTypes : Bool) :
    List (String × JVal) :=
  let normalizedPath := ensureDotSlash entryPath
  let base := conditions.foldl
    (fun result condition =>
      let conditionKey := serializeCombination [(condition, CondVal.bool true)]
      match findOutputGroup outputFiles normalizedPath conditionKey with
      | some _ =>
          jset result condition
            (JVal.obj (createExportEntryFromOutputs outputFiles normalizedPath conditionKey
              packageType exportTypes))
      | none => result)
    []
  let defaultConditionKey :=
    if "default" ∈ conditions then serializeCombination [("default", CondVal.bool true)]
    else serializeCombination []
  match findOutputGroup outputFiles normalizedPath defaultConditionKey with
  | some _ =>
      jset base "default"
        (JVal.obj (createExportEntryFromOutputs outputFiles normalizedPath defaultConditionKey
          packageType exportTypes))
  | none => base

/-- The recursive `buildLevel` of `createNestedConditionalExportFromOutputs`:
one nesting level per condition group in declaration order, pruning empty
branches and adding a `default` branch when the group declares one. -/
def buildNestedLevel (outputFiles : OutputMap) (normalizedPath : String)
    (packageType : Option String) (exportTypes : Bool) :
    List (String × List String) → Combination → List (String × JVal)
  | [], currentConditions =>
      let conditionKey := serializeCombination currentConditions
      match findOutputGroup outputFiles normalizedPath conditionKey with
      | none => []
      | some _ =>
          createExportEntryFromOutputs outputFiles normalizedPath conditionKey
            packageType exportTypes
  | (groupName, groupConditions) :: restGroups, currentConditions =>
      let result := groupConditions.foldl
        (fun result condition =>
          let entry := buildNestedLevel outputFiles normalizedPath packageType exportTypes
            restGroups (currentConditions ++ [(groupName, CondVal.str condition)])
          match entry with
          | [] => result
          | _ => jset result condition (JVal.obj entry))
        []
      if (aget result "default").isNone ∧ "default" ∈ groupConditions then
        let entry := buildNestedLevel outputFiles normalizedPath packageType exportTypes
          restGroups (currentConditions ++ [(groupName, CondVal.str "default")])
        match entry with
        | [] => result
        | _ => jset result "default" (JVal.obj entry)
      else result

/-- `createNestedConditionalExportFromOutputs` from `src/commands/build.ts`. -/
def createNestedConditionalExportFromOutputs (outputFiles : OutputMap) (entryPath : String)
    (conditionGroups : List (String × List String)) (packageType : Option String)
    (exportTypes : Bool) : List (String × JVal) :=
  buildNestedLevel outputFiles (ensureDotSlash entryPath) packageType exportTypes
    conditionGroups []

/-- `buildExportsField` from `src/commands/build.ts`: one export value per
entry subpath, shaped by the condition specification. -/
def buildExportsField (subPathMap : List (String × String)) (conds : ConditionSpec)
    (exportTypes : Bool) (outputFiles : OutputMap) (packageType : Option String) :
    List (String × JVal) :=
  subPathMap.foldl
    (fun exports kv =>
      match conds with
      | .undef =>
          match findOutputGroup outputFiles kv.2 (serializeCombination []) with
          | some _ =>
              jset exports kv.1
                (JVal.obj (createExportEntryFromOutputs outputFiles kv.2
                  (serializeCombination []) packageType exportTypes))
          | none => exports
      | .flat conditions =>
          jset exports kv.1
            (JVal.obj (createSimpleConditionalExportFromOutputs outputFiles kv.2 conditions
              packageType exportTypes))
      | .grouped groups =>
          jset exports kv.1
            (JVal.obj (createNestedConditionalExportFromOutputs outputFiles kv.2 groups
              packageType exportTypes)))
    []

/-! ## Legacy field derivation and package.json rewrite -/

/-- `branchPath` from `generatePackageExports`: the script path of an export
branch — the branch itself when a (truthy) string, else its `default` string
member. -/
def branchPath : Option JVal → Option String
  | none => none
  | some (.str s) => if s = "" then none else some s
  | some (.obj fs) =>
      match aget fs "default" with
      | some (.str s) => some s
      | _ => none

/-- `branchTypes` from `generatePackageExports`: the declaration path of an
export branch — its `types` string member, else its `default` object's
`types` string member. -/
def branchTypes : Option JVal → Option String
  | some (.obj fs) =>
      (match aget fs "types" with
       | some (.str s) => some s
       | _ =>
           match aget fs "default" with
           | some (.obj ds) =>
               (match aget ds "types" with
                | some (.str s) => some s
                | _ => none)
           | _ => none)
  | _ => none

/-- `getLeafExportFollowingAllDefaults` from `src/commands/build.ts`: walks
every group's `default` branch in group order; `undefined` as soon as a
group lacks the `default` label or the walk leaves the object tree. -/
def getLeafExportFollowingAllDefaults (rootExport : JVal)
    (conditionGroups : List (String × List String)) : Option JVal :=
  match rootExport with
  | .str _ => none
  | .obj fs => go (some (.obj fs)) conditionGroups
where
  go : Option JVal → List (String × List String) → Option JVal
    | current, [] =>
        match current with
        | some (.obj fs) => some (.obj fs)
        | _ => none
    | current, (_, groupConditions) :: rest =>
        if "default" ∈ groupConditions then
          match current with
          | some (.obj fs) => go (aget fs "default") rest
          | _ => none
        else none

/-- The `assignTopLevel` / `defaultLeaf` decision of `generatePackageExports`:
the leaf export entry the legacy fields are derived from, when the condition
shape admits an unambiguous default; `none` when the legacy fields must be
deleted instead. -/
def legacyLeafDecision (conds : ConditionSpec) (singleExport : List (String × JVal)) :
    Option JVal :=
  match conds with
  | .grouped groups =>
      if groups.all (fun g => "default" ∈ g.2) then
        match getLeafExportFollowingAllDefaults (.obj singleExport) groups with
        | some (.obj fs) => if fs.isEmpty then none else some (.obj fs)
        | some (.str s) => if s = "" then none else some (.str s)
        | none => none
      else none
  | .flat labels =>
      if "default" ∈ labels then
        let dl :=
          match aget singleExport "default" with
          | some v => if truthyJ v then v else JVal.obj singleExport
          | none => JVal.obj singleExport
        if truthyJ dl then some dl else none
      else none
  | .undef => some (JVal.obj singleExport)

/-- `rankOrder` of the legacy `types` inference in `generatePackageExports`
(case-insensitive extension tests on the chosen script path). -/
def rankOrderCI (preferScript : String) (packageType : Option String) : List String :=
  if endsWithCI preferScript ".mjs" then [".d.mts", ".d.ts", ".d.cts"]
  else if endsWithCI preferScript ".cjs" then [".d.cts", ".d.ts", ".d.mts"]
  else if endsWithCI preferScript ".js" then
    if packageType = some "module" then [".d.ts", ".d.mts", ".d.cts"]
    else if packageType = some "commonjs" then [".d.cts", ".d.ts", ".d.mts"]
    else [".d.ts", ".d.cts", ".d.mts"]
  else [".d.ts", ".d.cts", ".d.mts"]

/-- `scriptPath.replace(/(\.mjs|\.cjs|\.js)$/i, '')`. -/
def stripScriptSuffixCI (s : String) : String :=
  if endsWithCI s ".mjs" then strTake s (strLen s - 4)
  else if endsWithCI s ".cjs" then strTake s (strLen s - 4)
  else if endsWithCI s ".js" then strTake s (strLen s - 3)
  else s

/-- `match.replace(/^[.\/]+/, '')`: drops every leading dot or slash. -/
def dropLeadingDotSlash (s : String) : String :=
  ⟨s.data.dropWhile (fun c => c = '.' || c = '/')⟩

/-- Every file of every accumulated output group, in accumulator order. -/
def allOutputFilesOf (outputFiles : OutputMap) : List String :=
  (outputFiles.map (fun kv => kv.2.files)).flatten

/-- The candidate probe loop of the legacy `types` inference. -/
def inferTypesLoop (allFiles : List String) (scriptRoot : String) :
    List String → Option String
  | [] => none
  | ext :: rest =>
      let candidate := scriptRoot ++ ext
      match allFiles.find? (fun f => f = candidate || endsWithStr f ("/" ++ candidate)) with
      | some m => some ("./" ++ dropLeadingDotSlash m)
      | none => inferTypesLoop allFiles scriptRoot rest

/-- The legacy `types` inference of `generatePackageExports`: only attempted
from the CJS (`main`) script path, probing declaration extensions in an order
depending on the script's extension and the package module type, against all
produced output files. -/
def inferTypes (mainValue : Option String) (packageType : Option String)
    (outputFiles : OutputMap) : Option String :=
  match mainValue with
  | none => none
  | some script =>
      if script = "" then none
      else
        inferTypesLoop (allOutputFilesOf outputFiles)
          (stripScriptSuffixCI (stripDotSlashOnce script))
          (rankOrderCI script packageType)

/-- The package.json fields the synthesizer reads and rewrites. -/
structure Pkg where
  ptype : Option String
  main : Option String
  module : Option String
  types : Option String
  exports : Option JVal

/-- The legacy-field assignment of `generatePackageExports` once a default
leaf was found: `main` from the require branch, `module` from the import
branch, `types` from the require branch or the inference heuristic; falsy
values delete the field. -/
def applyLegacyFromLeaf (leaf : JVal) (outputFiles : OutputMap) (pkg : Pkg) : Pkg :=
  let requireBranch := jgetJ leaf "require"
  let importBranch := jgetJ leaf "import"
  let mainValue := branchPath requireBranch
  let moduleValue := branchPath importBranch
  let typesValue0 := branchTypes requireBranch
  let typesValue :=
    match truthyOptS typesValue0 with
    | some t => some t
    | none => inferTypes mainValue pkg.ptype outputFiles
  { pkg with
      main := truthyOptS mainValue
      module := truthyOptS moduleValue
      types := truthyOptS typesValue }

/-- The `singleExport` step of `generatePackageExports`: the export value of
the root subpath `.` when it is an object, else an empty object. -/
def singleExportOf (entries : List String) (subPathMap : List (String × String))
    (conds : ConditionSpec) (exportTypes : Bool) (buildResults : List BuildResult)
    (packageType : Option String) : List (String × JVal) :=
  match aget (buildExportsField subPathMap conds exportTypes
      (collectOutputFiles entries buildResults) packageType) "." with
  | some (.obj fs) => fs
  | _ => []

/-- The pure core of `generatePackageExports` from `src/commands/build.ts`:
given the resolved subpath map, the condition spec, the accumulated build
results and the current package.json fields, produces the rewritten fields.
The file I/O wrapper (reading and pretty-printing package.json) is outside
the model; the subpath map is the output of `toEntrySubPathMap`. -/
def generatePackageExportsModel (entries : List String) (subPathMap : List (String × String))
    (conds : ConditionSpec) (exportTypes : Bool) (buildResults : List BuildResult)
    (pkg : Pkg) : Pkg :=
  let outputFiles := collectOutputFiles entries buildResults
  let exportsField := buildExportsField subPathMap conds exportTypes outputFiles pkg.ptype
  let pkg1 :=
    match legacyLeafDecision conds
        (singleExportOf entries subPathMap conds exportTypes buildResults pkg.ptype) with
    | some leaf => applyLegacyFromLeaf leaf outputFiles pkg
    | none => { pkg with main := none, module := none, types := none }
  { pkg1 with
      exports := some (.obj (jset exportsField "./package.json" (.str "./package.json"))) }

/-! ## Serialization of the produced exports -/

mutual
/-- Compact JSON serialization of an export value (the byte representation
of the synthesized field; pretty-printing only inserts fixed whitespace). -/
def serializeJVal : JVal → String
  | .str s => quoteJson s
  | .obj fs => "\x7b" ++ serializeFields fs ++ "\x7d"

/-- Serialization of an object's members in insertion order. -/
def serializeFields : List (String × JVal) → String
  | [] => ""
  | [(k, v)] => quoteJson k ++ ":" ++ serializeJVal v
  | (k, v) :: rest => quoteJson k ++ ":" ++ serializeJVal v ++ "," ++ serializeFields rest
end

/-- Serialization of the whole optional exports field. -/
def serializeExports : Option JVal → String
  | none => "undefined"
  | some v => serializeJVal v

/-- The rewrite never changes the package module type. -/
theorem generatePackageExportsModel_ptype (entries : List String)
    (subPathMap : List (String × String)) (conds : ConditionSpec) (exportTypes : Bool)
    (buildResults : List BuildResult) (pkg : Pkg) :
    (generatePackageExportsModel entries subPathMap conds exportTypes buildResults pkg).ptype
      = pkg.ptype := by
  unfold generatePackageExportsModel
  generalize legacyLeafDecision conds
    (singleExportOf entries subPathMap conds exportTypes buildResults pkg.ptype) = d
  cases d with
  | none => rfl
  | some leaf => rfl

/-- The exports value the rewrite assigns, as a function of the inputs and
the package type only. -/
theorem generatePackageExportsModel_exports (entries : List String)
    (subPathMap : List (String × String)) (conds : ConditionSpec) (exportTypes : Bool)
    (buildResults : List BuildResult) (pkg : Pkg) :
    (generatePackageExportsModel entries subPathMap conds exportTypes buildResults pkg).exports
      = some (.obj (jset
          (buildExportsField subPathMap conds exportTypes
            (collectOutputFiles entries buildResults) pkg.ptype)
          "./package.json" (.str "./package.json"))) := by
  unfold generatePackageExportsModel
  generalize legacyLeafDecision conds
    (singleExportOf entries subPathMap conds exportTypes buildResults pkg.ptype) = d
  cases d with
  | none => rfl
  | some leaf => rfl

/-- C9: every package.json written by export synthesis maps the key
`./package.json` to the string `./package.json`, for every entry set,
condition shape, build-result set and starting package state. -/
theorem c9_package_json_self_export (entries : List String)
    (subPathMap : List (String × String)) (conds : ConditionSpec) (exportTypes : Bool)
    (buildResults : List BuildResult) (pkg : Pkg) :
    ∃ fs, (generatePackageExportsModel entries subPathMap conds exportTypes buildResults
            pkg).exports = some (.obj fs)
      ∧ aget fs "./package.json" = some (.str "./package.json") := by
  refine ⟨_, generatePackageExportsModel_exports entries subPathMap conds exportTypes
    buildResults pkg, ?_⟩
  rw [aget_jset]
  simp

/-- C8: the export-field synthesis is a deterministic function of its
inputs, and rewriting an already-rewritten package.json reproduces the very
same exports value byte for byte. -/
theorem c8_export_synthesis_idempotent (entries : List String)
    (subPathMap : List (String × String)) (conds : ConditionSpec) (exportTypes : Bool)
    (buildResults : List BuildResult) (pkg : Pkg) :
    (generatePackageExportsModel entries subPathMap conds exportTypes buildResults
        (generatePackageExportsModel entries subPathMap conds exportTypes buildResults
          pkg)).exports
      = (generatePackageExportsModel entries subPathMap conds exportTypes buildResults
          pkg).exports
    ∧ serializeExports
        ((generatePackageExportsModel entries subPathMap conds exportTypes buildResults
          (generatePackageExportsModel entries subPathMap conds exportTypes buildResults
            pkg)).exports)
      = serializeExports
        ((generatePackageExportsModel entries subPathMap conds exportTypes buildResults
          pkg).exports) := by
  have h : (generatePackageExportsModel entries subPathMap conds exportTypes buildResults
      (generatePackageExportsModel entries subPathMap conds exportTypes buildResults
        pkg)).exports
      = (generatePackageExportsModel entries subPathMap conds exportTypes buildResults
          pkg).exports := by
    rw [generatePackageExportsModel_exports, generatePackageExportsModel_exports,
      generatePackageExportsModel_ptype]
  exact ⟨h, congrArg serializeExports h⟩

/-- The default-chain walk only ever produces an object leaf. -/
theorem getLeafGo_not_str (groups : List (String × List String)) :
    ∀ (current : Option JVal) (s : String),
      getLeafExportFollowingAllDefaults.go current groups ≠ some (JVal.str s) := by
  induction groups with
  | nil =>
    intro current s
    rcases current with _ | v
    · simp [getLeafExportFollowingAllDefaults.go]
    · cases v <;> simp [getLeafExportFollowingAllDefaults.go]
  | cons g rest ih =>
    intro current s
    obtain ⟨name, conds⟩ := g
    by_cases hd : "default" ∈ conds
    · rcases current with _ | v
      · simp [getLeafExportFollowingAllDefaults.go, hd]
      · cases v with
        | str t => simp [getLeafExportFollowingAllDefaults.go, hd]
        | obj fs =>
            simpa [getLeafExportFollowingAllDefaults.go, hd] using ih (aget fs "default") s
    · simp [getLeafExportFollowingAllDefaults.go, hd]

/-- The default-chain walk from any root never yields a string. -/
theorem getLeaf_not_str (root : JVal) (groups : List (String × List String)) (s : String) :
    getLeafExportFollowingAllDefaults root groups ≠ some (JVal.str s) := by
  cases root with
  | str t => simp [getLeafExportFollowingAllDefaults]
  | obj fs =>
      simpa [getLeafExportFollowingAllDefaults] using getLeafGo_not_str groups (some (.obj fs)) s

/-- C5: under grouped conditions, when some group does not declare the
`default` label, or walking every group's `default` branch through the built
export tree does not reach a non-empty leaf object, the `main`, `module` and
`types` fields are all deleted rather than guessed. -/
theorem c5_legacy_fields_omitted_without_default_chain (entries : List String)
    (subPathMap : List (String × String)) (groups : List (String × List String))
    (exportTypes : Bool) (buildResults : List BuildResult) (pkg : Pkg)
    (h : (∃ g ∈ groups, "default" ∉ g.2)
        ∨ ∀ fs, getLeafExportFollowingAllDefaults
            (.obj (singleExportOf entries subPathMap (.grouped groups) exportTypes
              buildResults pkg.ptype)) groups = some (.obj fs) → fs = []) :
    (generatePackageExportsModel entries subPathMap (.grouped groups) exportTypes buildResults
        pkg).main = none
    ∧ (generatePackageExportsModel entries subPathMap (.grouped groups) exportTypes buildResults
        pkg).module = none
    ∧ (generatePackageExportsModel entries subPathMap (.grouped groups) exportTypes buildResults
        pkg).types = none := by
  have hdec : legacyLeafDecision (.grouped groups)
      (singleExportOf entries subPathMap (.grouped groups) exportTypes buildResults pkg.ptype)
        = none := by
    show (if groups.all (fun g => "default" ∈ g.2) then
        match getLeafExportFollowingAllDefaults
            (JVal.obj (singleExportOf entries subPathMap (.grouped groups) exportTypes
              buildResults pkg.ptype)) groups with
        | some (JVal.obj fs) => if fs.isEmpty then none else some (JVal.obj fs)
        | some (JVal.str s) => if s = "" then none else some (JVal.str s)
        | none => none
      else none) = (none : Option JVal)
    by_cases hall : groups.all (fun g => "default" ∈ g.2)
    · rw [if_pos hall]
      rcases h with ⟨g, hg, hgd⟩ | h2
      · exfalso
        rw [List.all_eq_true] at hall
        exact hgd (by simpa using hall g hg)
      · rcases hleaf : getLeafExportFollowingAllDefaults
            (.obj (singleExportOf entries subPathMap (.grouped groups) exportTypes
              buildResults pkg.ptype)) groups with _ | leaf
        · simp [hleaf]
        · cases leaf with
          | str s => exact absurd hleaf (getLeaf_not_str _ groups s)
          | obj fs =>
              have hfs := h2 fs hleaf
              subst hfs
              simp [hleaf]
    · rw [if_neg hall]
  unfold generatePackageExportsModel
  rw [hdec]
  exact ⟨rfl, rfl, rfl⟩

/-- Witness for C5 at a concrete group lacking the `default` label. -/
theorem c5_legacy_fields_omitted_without_default_chain_witness :
    (generatePackageExportsModel ["./src/index.ts"] [(".", "src/index.ts")]
        (.grouped [("env", ["node"])]) false
        [⟨[[⟨"chunk", "index.mjs", true⟩, ⟨"chunk", "index.cjs", true⟩]],
          [("env", CondVal.str "node")], "dist/node"⟩]
        ⟨none, some "./old-main", some "./old-module", some "./old-types", none⟩).main = none
    ∧ (generatePackageExportsModel ["./src/index.ts"] [(".", "src/index.ts")]
        (.grouped [("env", ["node"])]) false
        [⟨[[⟨"chunk", "index.mjs", true⟩, ⟨"chunk", "index.cjs", true⟩]],
          [("env", CondVal.str "node")], "dist/node"⟩]
        ⟨none, some "./old-main", some "./old-module", some "./old-types", none⟩).module = none
    ∧ (generatePackageExportsModel ["./src/index.ts"] [(".", "src/index.ts")]
        (.grouped [("env", ["node"])]) false
        [⟨[[⟨"chunk", "index.mjs", true⟩, ⟨"chunk", "index.cjs", true⟩]],
          [("env", CondVal.str "node")], "dist/node"⟩]
        ⟨none, some "./old-main", some "./old-module", some "./old-types", none⟩).types = none :=
  c5_legacy_fields_omitted_without_default_chain _ _ _ _ _ _
    (Or.inl ⟨("env", ["node"]), by decide, by decide⟩)

/-- A truthy optional string is never the empty string. -/
theorem truthyOptS_ne_empty (x : Option String) (t : String)
    (h : truthyOptS x = some t) : t ≠ "" := by
  rcases x with _ | s
  · simp [truthyOptS] at h
  · by_cases hs : s = "" <;> simp [truthyOptS, hs] at h
    rw [← h]
    exact hs

/-- Every hit of the legacy `types` probe loop is a produced file matching
one probed declaration candidate, reported with a `./` prefix. -/
theorem inferTypesLoop_spec (allFiles : List String) (root : String) :
    ∀ (exts : List String) (t : String),
      inferTypesLoop allFiles root exts = some t →
      ∃ ext ∈ exts, ∃ f ∈ allFiles,
        (f = root ++ ext ∨ endsWithStr f ("/" ++ (root ++ ext)) = true)
        ∧ t = "./" ++ dropLeadingDotSlash f := by
  intro exts
  induction exts with
  | nil => intro t ht; simp [inferTypesLoop] at ht
  | cons ext rest ih =>
    intro t ht
    simp only [inferTypesLoop] at ht
    rcases hf : allFiles.find?
        (fun f => f = root ++ ext || endsWithStr f ("/" ++ (root ++ ext))) with _ | found
    · rw [hf] at ht
      obtain ⟨e, he, hrest⟩ := ih t ht
      exact ⟨e, List.mem_cons_of_mem _ he, hrest⟩
    · rw [hf] at ht
      injection ht with ht
      have hm := List.mem_of_find?_eq_some hf
      have hp := List.find?_some hf
      simp only [Bool.or_eq_true, decide_eq_true_eq] at hp
      exact ⟨ext, List.mem_cons_self _ _, found, hm, hp, ht.symm⟩

/-- Counterexample to C4 as stated: an ESM-only build leaves the default
leaf with an `import` path but no `require` path; the code then deletes
`main` instead of falling back to the `import` path. -/
theorem c4_legacy_main_counterexample :
    (generatePackageExportsModel ["./src/index.ts"] [(".", "src/index.ts")] .undef false
        [⟨[[⟨"chunk", "index.mjs", true⟩]], [], "dist"⟩]
        ⟨none, some "./old-main", some "./old-module", some "./old-types", none⟩).main = none
    ∧ (generatePackageExportsModel ["./src/index.ts"] [(".", "src/index.ts")] .undef false
        [⟨[[⟨"chunk", "index.mjs", true⟩]], [], "dist"⟩]
        ⟨none, some "./old-main", some "./old-module", some "./old-types", none⟩).module
      = some "./dist/index.mjs"
    ∧ singleExportOf ["./src/index.ts"] [(".", "src/index.ts")] .undef false
        [⟨[[⟨"chunk", "index.mjs", true⟩]], [], "dist"⟩] none
      = [("import", JVal.str "./dist/index.mjs"), ("default", JVal.str "./dist/index.mjs")] :=
  ⟨rfl, rfl, rfl⟩

/-- C4 (amended): when a default leaf is derivable, `main` is set to the
leaf's require-branch path and deleted when that branch has none — there is
no fallback to the import path; `module` is the import-branch path; `types`
comes from the require branch when present, else from the heuristic that
strips the chosen (`main`) script's extension and probes
declaration-extension candidates, in an order depending on that extension
and the package module type, against all produced files. -/
theorem c4_legacy_field_derivation_amended (entries : List String)
    (subPathMap : List (String × String)) (conds : ConditionSpec) (exportTypes : Bool)
    (buildResults : List BuildResult) (pkg : Pkg) (leaf : JVal)
    (hdec : legacyLeafDecision conds
        (singleExportOf entries subPathMap conds exportTypes buildResults pkg.ptype)
      = some leaf) :
    (generatePackageExportsModel entries subPathMap conds exportTypes buildResults pkg).main
        = truthyOptS (branchPath (jgetJ leaf "require"))
    ∧ (generatePackageExportsModel entries subPathMap conds exportTypes buildResults pkg).module
        = truthyOptS (branchPath (jgetJ leaf "import"))
    ∧ (∀ t, truthyOptS (branchTypes (jgetJ leaf "require")) = some t →
        (generatePackageExportsModel entries subPathMap conds exportTypes buildResults
          pkg).types = some t)
    ∧ (truthyOptS (branchTypes (jgetJ leaf "require")) = none →
        (generatePackageExportsModel entries subPathMap conds exportTypes buildResults
            pkg).types
          = truthyOptS (inferTypes (branchPath (jgetJ leaf "require")) pkg.ptype
              (collectOutputFiles entries buildResults)))
    ∧ (∀ script t,
        inferTypes (some script) pkg.ptype (collectOutputFiles entries buildResults) = some t →
        ∃ ext ∈ rankOrderCI script pkg.ptype,
          ∃ f ∈ allOutputFilesOf (collectOutputFiles entries buildResults),
            (f = stripScriptSuffixCI (stripDotSlashOnce script) ++ ext
              ∨ endsWithStr f ("/" ++ (stripScriptSuffixCI (stripDotSlashOnce script) ++ ext))
                = true)
            ∧ t = "./" ++ dropLeadingDotSlash f) := by
  refine ⟨?_, ?_, ?_, ?_, ?_⟩
  · unfold generatePackageExportsModel
    rw [hdec]
    rfl
  · unfold generatePackageExportsModel
    rw [hdec]
    rfl
  · intro t ht
    unfold generatePackageExportsModel
    rw [hdec]
    show truthyOptS (match truthyOptS (branchTypes (jgetJ leaf "require")) with
      | some t => some t
      | none => inferTypes (branchPath (jgetJ leaf "require")) pkg.ptype
          (collectOutputFiles entries buildResults)) = some t
    rw [ht]
    simp [truthyOptS, truthyOptS_ne_empty _ t ht]
  · intro ht
    unfold generatePackageExportsModel
    rw [hdec]
    show truthyOptS (match truthyOptS (branchTypes (jgetJ leaf "require")) with
      | some t => some t
      | none => inferTypes (branchPath (jgetJ leaf "require")) pkg.ptype
          (collectOutputFiles entries buildResults)) = _
    rw [ht]
  · intro script t ht
    simp only [inferTypes] at ht
    by_cases hs : script = ""
    · rw [if_pos hs] at ht
      cases ht
    · rw [if_neg hs] at ht
      exact inferTypesLoop_spec _ _ _ t ht

/-- Witness for the amended C4 at a concrete dual-format build: `main` comes
from the leaf's require path. -/
theorem c4_legacy_field_derivation_amended_witness :
    (generatePackageExportsModel ["./src/index.ts"] [(".", "src/index.ts")] .undef false
        [⟨[[⟨"chunk", "index.mjs", true⟩, ⟨"chunk", "index.cjs", true⟩,
            ⟨"chunk", "index.d.ts", false⟩]], [], "dist"⟩]
        ⟨none, none, none, none, none⟩).main = some "./dist/index.cjs" :=
  ((c4_legacy_field_derivation_amended ["./src/index.ts"] [(".", "src/index.ts")] .undef false
      [⟨[[⟨"chunk", "index.mjs", true⟩, ⟨"chunk", "index.cjs", true⟩,
          ⟨"chunk", "index.d.ts", false⟩]], [], "dist"⟩]
      ⟨none, none, none, none, none⟩
      (JVal.obj [("import", JVal.str "./dist/index.mjs"),
        ("require", JVal.str "./dist/index.cjs"),
        ("default", JVal.str "./dist/index.mjs")]) rfl).1).trans (by decide)

/-! ## Suffix exclusion and classification lemmas -/

/-- Two leading segments of one list are nested when one is no longer. -/
theorem isPre_trans_le : ∀ (l a b : List Char), isPre a l = true → isPre b l = true →
    a.length ≤ b.length → isPre a b = true
  | _, [], _ => by intro _ _ _; rfl
  | [], x :: as, _ => by intro h; simp [isPre] at h
  | y :: ls, x :: as, [] => by intro _ _ h; simp at h
  | y :: ls, x :: as, z :: bs => by
      intro ha hb hlen
      simp only [isPre, Bool.and_eq_true, decide_eq_true_eq] at ha hb ⊢
      refine ⟨by rw [ha.1, hb.1], ?_⟩
      exact isPre_trans_le ls as bs ha.2 hb.2 (by simpa using hlen)

/-- Two suffixes of one string are nested when one is no longer. -/
theorem endsWith_suffix_le (f a b : String) (ha : endsWithStr f a = true)
    (hb : endsWithStr f b = true) (hlen : a.data.length ≤ b.data.length) :
    isSuf a.data b.data = true := by
  unfold endsWithStr isSuf at *
  exact isPre_trans_le f.data.reverse a.data.reverse b.data.reverse ha hb (by simpa using hlen)

/-- No string carries two suffixes of which the shorter is not a suffix of
the longer. -/
theorem ends_mutual_exclusive (a b : String) (hab : isSuf a.data b.data = false)
    (hlen : a.data.length ≤ b.data.length) (f : String) :
    ¬(endsWithStr f a = true ∧ endsWithStr f b = true) := by
  rintro ⟨ha, hb⟩
  have h := endsWith_suffix_le f a b ha hb hlen
  rw [h] at hab
  simp at hab

/-- A declaration file never carries a `.mjs` suffix. -/
theorem not_ends_mjs_of_dts (f : String) (h : isDtsFile f = true) :
    endsWithStr f ".mjs" = false := by
  by_contra hc
  rw [Bool.not_eq_false] at hc
  simp only [isDtsFile, Bool.or_eq_true] at h
  rcases h with (h | h) | h
  · exact ends_mutual_exclusive ".mjs" ".d.ts" (by decide) (by decide) f ⟨hc, h⟩
  · exact ends_mutual_exclusive ".mjs" ".d.mts" (by decide) (by decide) f ⟨hc, h⟩
  · exact ends_mutual_exclusive ".mjs" ".d.cts" (by decide) (by decide) f ⟨hc, h⟩

/-- A declaration file never carries a `.cjs` suffix. -/
theorem not_ends_cjs_of_dts (f : String) (h : isDtsFile f = true) :
    endsWithStr f ".cjs" = false := by
  by_contra hc
  rw [Bool.not_eq_false] at hc
  simp only [isDtsFile, Bool.or_eq_true] at h
  rcases h with (h | h) | h
  · exact ends_mutual_exclusive ".cjs" ".d.ts" (by decide) (by decide) f ⟨hc, h⟩
  · exact ends_mutual_exclusive ".cjs" ".d.mts" (by decide) (by decide) f ⟨hc, h⟩
  · exact ends_mutual_exclusive ".cjs" ".d.cts" (by decide) (by decide) f ⟨hc, h⟩

/-- A declaration file never carries a bare `.js` suffix. -/
theorem not_ends_js_of_dts (f : String) (h : isDtsFile f = true) :
    endsWithStr f ".js" = false := by
  by_contra hc
  rw [Bool.not_eq_false] at hc
  simp only [isDtsFile, Bool.or_eq_true] at h
  rcases h with (h | h) | h
  · exact ends_mutual_exclusive ".js" ".d.ts" (by decide) (by decide) f ⟨hc, h⟩
  · exact ends_mutual_exclusive ".js" ".d.mts" (by decide) (by decide) f ⟨hc, h⟩
  · exact ends_mutual_exclusive ".js" ".d.cts" (by decide) (by decide) f ⟨hc, h⟩

/-- `.mjs` and `.cjs` files are disjoint. -/
theorem not_ends_cjs_of_mjs (f : String) (h : endsWithStr f ".mjs" = true) :
    endsWithStr f ".cjs" = false := by
  by_contra hc
  rw [Bool.not_eq_false] at hc
  exact ends_mutual_exclusive ".cjs" ".mjs" (by decide) (by decide) f ⟨hc, h⟩

/-- A `.mjs` file never counts as a plain `.js` file. -/
theorem not_ends_js_of_mjs (f : String) (h : endsWithStr f ".mjs" = true) :
    endsWithStr f ".js" = false := by
  by_contra hc
  rw [Bool.not_eq_false] at hc
  exact ends_mutual_exclusive ".js" ".mjs" (by decide) (by decide) f ⟨hc, h⟩

/-- A `.cjs` file never counts as a plain `.js` file. -/
theorem not_ends_js_of_cjs (f : String) (h : endsWithStr f ".cjs" = true) :
    endsWithStr f ".js" = false := by
  by_contra hc
  rw [Bool.not_eq_false] at hc
  exact ends_mutual_exclusive ".js" ".cjs" (by decide) (by decide) f ⟨hc, h⟩

/-- The first-match classification chain coincides with the four suffix
filters, because the four suffix classes are mutually exclusive. -/
theorem classifyLoop_eq (files : List String) :
    classifyLoop files
      = (files.filter (fun f => isDtsFile f),
         files.filter (fun f => endsWithStr f ".mjs"),
         files.filter (fun f => endsWithStr f ".cjs"),
         files.filter (fun f => endsWithStr f ".js")) := by
  induction files with
  | nil => rfl
  | cons f rest ih =>
    simp only [classifyLoop, ih, List.filter_cons]
    by_cases h1 : isDtsFile f
    · simp [h1, not_ends_mjs_of_dts f h1, not_ends_cjs_of_dts f h1, not_ends_js_of_dts f h1]
    · by_cases h2 : endsWithStr f ".mjs"
      · simp [h1, h2, not_ends_cjs_of_mjs f h2, not_ends_js_of_mjs f h2]
      · by_cases h3 : endsWithStr f ".cjs"
        · simp [h1, h2, h3, not_ends_js_of_cjs f h3]
        · by_cases h4 : endsWithStr f ".js" <;> simp [h1, h2, h3, h4]

/-- The head of a filtered list is the first match. -/
theorem head_filter_eq_find (p : String → Bool) (l : List String) :
    (l.filter p).head? = l.find? p := by
  induction l with
  | nil => rfl
  | cons x xs ih =>
    by_cases h : p x
    · simp [List.filter_cons, h, List.find?_cons_of_pos _ h]
    · rw [List.filter_cons, if_neg (by simpa using h), List.find?_cons_of_neg _ h]
      exact ih

/-- Filtering by a weaker predicate does not change the first match of a
stronger one. -/
theorem find_filter_of_imp (p q : String → Bool) (l : List String)
    (h : ∀ x, p x = true → q x = true) : (l.filter q).find? p = l.find? p := by
  induction l with
  | nil => rfl
  | cons x xs ih =>
    by_cases hq : q x
    · rw [List.filter_cons, if_pos (by simpa using hq)]
      by_cases hp : p x
      · rw [List.find?_cons_of_pos _ hp, List.find?_cons_of_pos _ hp]
      · rw [List.find?_cons_of_neg _ hp, List.find?_cons_of_neg _ hp]
        exact ih
    · have hp : ¬ p x = true := fun hc => hq (h x hc)
      rw [List.filter_cons, if_neg (by simpa using hq), List.find?_cons_of_neg _ hp]
      exact ih

/-- The head after one stable insertion. -/
theorem insertStable_head {α : Type} (lt : α → α → Bool) (x : α) (l : List α) :
    (insertStable lt x l).head?
      = match l.head? with
        | none => some x
        | some y => if lt y x then some y else some x := by
  cases l with
  | nil => rfl
  | cons y ys =>
    by_cases h : lt y x <;> simp [insertStable, h]

/-- The first element of minimal key, ties resolved to the earliest. -/
def minFirstBy (key : String → Nat) : List String → Option String
  | [] => none
  | x :: xs =>
      match minFirstBy key xs with
      | none => some x
      | some m => if key m < key x then some m else some x

/-- The head of a key-stable-sorted list is the first minimal element. -/
theorem stableSort_head (key : String → Nat) (l : List String) :
    (stableSort (fun a b => key a < key b) l).head? = minFirstBy key l := by
  induction l with
  | nil => rfl
  | cons x xs ih =>
    show (insertStable (fun a b => key a < key b) x
      (stableSort (fun a b => key a < key b) xs)).head? = _
    rw [insertStable_head, ih]
    rcases hm : minFirstBy key xs with _ | m <;> simp [minFirstBy, hm]

/-- A nonempty list always has a first minimal element. -/
theorem minFirstBy_ne_none (key : String → Nat) (x : String) (xs : List String) :
    minFirstBy key (x :: xs) ≠ none := by
  simp only [minFirstBy]
  rcases minFirstBy key xs with _ | m
  · simp
  · by_cases h : key m < key x <;> simp [h]

/-- A first minimal element belongs to the list. -/
theorem minFirstBy_mem (key : String → Nat) (l : List String) (m : String)
    (h : minFirstBy key l = some m) : m ∈ l := by
  induction l with
  | nil => simp [minFirstBy] at h
  | cons x xs ih =>
    simp only [minFirstBy] at h
    rcases hr : minFirstBy key xs with _ | m' <;> simp only [hr] at h
    · injection h with h
      exact h ▸ List.mem_cons_self _ _
    · by_cases hlt : key m' < key x
      · rw [if_pos hlt] at h
        injection h with h
        rw [h] at hr
        exact List.mem_cons_of_mem _ (ih hr)
      · rw [if_neg hlt] at h
        injection h with h
        exact h ▸ List.mem_cons_self _ _

/-- A first minimal element has minimal key. -/
theorem minFirstBy_min (key : String → Nat) (l : List String) (m : String)
    (h : minFirstBy key l = some m) : ∀ x ∈ l, key m ≤ key x := by
  induction l generalizing m with
  | nil => simp [minFirstBy] at h
  | cons x xs ih =>
    simp only [minFirstBy] at h
    intro y hy
    rcases List.mem_cons.mp hy with rfl | hy'
    · rcases hr : minFirstBy key xs with _ | m' <;> simp only [hr] at h
      · injection h with h
        exact h ▸ Nat.le_refl _
      · by_cases hlt : key m' < key y
        · rw [if_pos hlt] at h
          injection h with h
          exact h ▸ Nat.le_of_lt hlt
        · rw [if_neg hlt] at h
          injection h with h
          exact h ▸ Nat.le_refl _
    · rcases hr : minFirstBy key xs with _ | m' <;> simp only [hr] at h
      · cases xs with
        | nil => simp at hy'
        | cons a as => exact absurd hr (minFirstBy_ne_none key a as)
      · by_cases hlt : key m' < key x
        · rw [if_pos hlt] at h
          injection h with h
          exact h ▸ ih m' hr y hy'
        · rw [if_neg hlt] at h
          injection h with h
          subst h
          have := ih m' hr y hy'
          omega

/-- Among the elements of minimal key the first one wins. -/
theorem minFirstBy_first (key : String → Nat) (l : List String) (m : String)
    (h : minFirstBy key l = some m) :
    l.find? (fun x => key x = key m) = some m := by
  induction l generalizing m with
  | nil => simp [minFirstBy] at h
  | cons x xs ih =>
    simp only [minFirstBy] at h
    rcases hr : minFirstBy key xs with _ | m' <;> simp only [hr] at h
    · injection h with h
      subst h
      exact List.find?_cons_of_pos _ (by simp)
    · by_cases hlt : key m' < key x
      · rw [if_pos hlt] at h
        injection h with h
        subst h
        rw [List.find?_cons_of_neg _ (by simp; omega)]
        exact ih _ hr
      · rw [if_neg hlt] at h
        injection h with h
        subst h
        exact List.find?_cons_of_pos _ (by simp)

/-- A declaration file has priority rank at most two. -/
theorem dtsRank_le_two (f : String) (h : isDtsFile f = true) : dtsRank f ≤ 2 := by
  simp only [isDtsFile, Bool.or_eq_true] at h
  unfold dtsRank
  split_ifs with h0 h1 h2
  · omega
  · omega
  · omega
  · rcases h with (h | h) | h
    · exact absurd h h0
    · exact absurd h h1
    · exact absurd h h2

/-- The `.d.ts` suffix excludes the `.d.mts` suffix. -/
theorem not_ends_dts_of_dmts (f : String) (h : endsWithStr f ".d.mts" = true) :
    endsWithStr f ".d.ts" = false := by
  by_contra hc
  rw [Bool.not_eq_false] at hc
  exact ends_mutual_exclusive ".d.ts" ".d.mts" (by decide) (by decide) f ⟨hc, h⟩

/-- The `.d.cts` suffix excludes the `.d.ts` suffix. -/
theorem not_ends_dts_of_dcts (f : String) (h : endsWithStr f ".d.cts" = true) :
    endsWithStr f ".d.ts" = false := by
  by_contra hc
  rw [Bool.not_eq_false] at hc
  exact ends_mutual_exclusive ".d.ts" ".d.cts" (by decide) (by decide) f ⟨hc, h⟩

/-- The `.d.cts` suffix excludes the `.d.mts` suffix. -/
theorem not_ends_dmts_of_dcts (f : String) (h : endsWithStr f ".d.cts" = true) :
    endsWithStr f ".d.mts" = false := by
  by_contra hc
  rw [Bool.not_eq_false] at hc
  exact ends_mutual_exclusive ".d.mts" ".d.cts" (by decide) (by decide) f ⟨hc, h⟩

/-- Rank zero characterizes `.d.ts` files. -/
theorem dtsRank_zero_pred (x : String) :
    (decide (dtsRank x = 0)) = endsWithStr x ".d.ts" := by
  by_cases h : endsWithStr x ".d.ts"
  · simp [dtsRank, h]
  · have hx : endsWithStr x ".d.ts" = false := by simpa using h
    rw [hx]
    simp only [dtsRank, hx, Bool.false_eq_true, if_false]
    split_ifs <;> simp

/-- Rank one characterizes `.d.mts` files. -/
theorem dtsRank_one_pred (x : String) :
    (decide (dtsRank x = 1)) = endsWithStr x ".d.mts" := by
  by_cases h : endsWithStr x ".d.mts"
  · rw [h]
    simp [dtsRank, not_ends_dts_of_dmts x h, h]
  · have hx : endsWithStr x ".d.mts" = false := by simpa using h
    rw [hx]
    simp only [dtsRank]
    split_ifs <;> simp_all

/-- Rank two characterizes `.d.cts` files. -/
theorem dtsRank_two_pred (x : String) :
    (decide (dtsRank x = 2)) = endsWithStr x ".d.cts" := by
  by_cases h : endsWithStr x ".d.cts"
  · rw [h]
    simp [dtsRank, not_ends_dts_of_dcts x h, not_ends_dmts_of_dcts x h, h]
  · have hx : endsWithStr x ".d.cts" = false := by simpa using h
    rw [hx]
    simp only [dtsRank]
    split_ifs <;> simp_all

/-- Changing to a pointwise-equal predicate keeps the first match. -/
theorem find_ext (p q : String → Bool) (l : List String) (h : ∀ x, p x = q x) :
    l.find? p = l.find? q := by
  rw [show p = q from funext h]

/-- The first minimal-rank declaration is the first `.d.ts` file, else the
first `.d.mts` file, else the first `.d.cts` file. -/
theorem minFirstBy_dtsRank_chain (l : List String) (hl : ∀ x ∈ l, dtsRank x ≤ 2) :
    minFirstBy dtsRank l
      = (l.find? (fun x => endsWithStr x ".d.ts")).or
          ((l.find? (fun x => endsWithStr x ".d.mts")).or
            (l.find? (fun x => endsWithStr x ".d.cts"))) := by
  rw [← find_ext _ _ l dtsRank_zero_pred, ← find_ext _ _ l dtsRank_one_pred,
    ← find_ext _ _ l dtsRank_two_pred]
  rcases hm : minFirstBy dtsRank l with _ | m
  · have hnil : l = [] := by
      cases l with
      | nil => rfl
      | cons a as => exact absurd hm (minFirstBy_ne_none dtsRank a as)
    subst hnil
    rfl
  · have hmem := minFirstBy_mem _ _ _ hm
    have hmin := minFirstBy_min _ _ _ hm
    have hfirst := minFirstBy_first _ _ _ hm
    have hrank := hl m hmem
    have hnone : ∀ r, r < dtsRank m → l.find? (fun x => decide (dtsRank x = r)) = none := by
      intro r hr
      rw [List.find?_eq_none]
      intro x hx hpx
      simp only [decide_eq_true_eq] at hpx
      have := hmin x hx
      omega
    have h012 : dtsRank m = 0 ∨ dtsRank m = 1 ∨ dtsRank m = 2 := by omega
    rcases h012 with h0 | h1 | h2
    · rw [h0] at hfirst
      rw [hfirst]
      rfl
    · rw [h1] at hfirst
      rw [hnone 0 (by omega), hfirst]
      rfl
    · rw [h2] at hfirst
      rw [hnone 0 (by omega), hnone 1 (by omega), hfirst]
      rfl

/-- Reading `import` from the flat ExportEntry object. -/
theorem aget_optFields_import (imp req dflt : Option String) :
    aget (optField "import" imp ++ optField "require" req ++ optField "default" dflt)
        "import" = imp.map JVal.str := by
  rcases imp with _ | i <;> rcases req with _ | r <;> rcases dflt with _ | d <;>
    simp [optField, aget]

/-- Reading `require` from the flat ExportEntry object. -/
theorem aget_optFields_require (imp req dflt : Option String) :
    aget (optField "import" imp ++ optField "require" req ++ optField "default" dflt)
        "require" = req.map JVal.str := by
  rcases imp with _ | i <;> rcases req with _ | r <;> rcases dflt with _ | d <;>
    simp [optField, aget]

/-- Reading `default` from the flat ExportEntry object. -/
theorem aget_optFields_default (imp req dflt : Option String) :
    aget (optField "import" imp ++ optField "require" req ++ optField "default" dflt)
        "default" = dflt.map JVal.str := by
  rcases imp with _ | i <;> rcases req with _ | r <;> rcases dflt with _ | d <;>
    simp [optField, aget]

/-- The flat ExportEntry object never carries a `types` member. -/
theorem aget_optFields_types (imp req dflt : Option String) :
    aget (optField "import" imp ++ optField "require" req ++ optField "default" dflt)
        "types" = none := by
  rcases imp with _ | i <;> rcases req with _ | r <;> rcases dflt with _ | d <;>
    simp [optField, aget]

/-- The head-of-filter with fallback selection equals the or-chain of first
matches. -/
theorem match_head_or (p q : String → Bool) (files : List String) :
    (match files.filter p with
     | m :: _ => some (toExportPath m)
     | [] =>
         match files.filter q with
         | x :: _ => some (toExportPath x)
         | [] => none)
      = ((files.find? p).or (files.find? q)).map toExportPath := by
  rw [← head_filter_eq_find p, ← head_filter_eq_find q]
  rcases files.filter p with _ | ⟨m, ms⟩ <;> rcases files.filter q with _ | ⟨x, xs⟩ <;>
    simp [Option.or]

/-- C1 (amended): with types emission disabled the synthesized ExportEntry
has no `types` member; `import` is the first `.mjs` file, falling back to
the first plain `.js` file only when no `.mjs` exists; `require` is the
first `.cjs` file with the same plain-`.js` fallback; for a package type
other than `commonjs`, `default` is the `import` value when the ESM value
exists, else the `require` value (a `commonjs` package prefers `require` —
see the counterexample); and the prioritized declaration (used when types
emission is enabled) is the first `.d.ts` file, else the first `.d.mts`
file, else the first `.d.cts` file. -/
theorem c1_export_entry_selection_amended (outputFiles : OutputMap)
    (entryPath condition : String) (packageType : Option String) (group : OutputGroup)
    (hgrp : findOutputGroup outputFiles entryPath condition = some group)
    (hpt : packageType ≠ some "commonjs") :
    aget (createExportEntryFromOutputs outputFiles entryPath condition packageType false)
        "types" = none
    ∧ aget (createExportEntryFromOutputs outputFiles entryPath condition packageType false)
        "import"
      = ((group.files.find? (fun f => endsWithStr f ".mjs")).or
          (group.files.find? (fun f => endsWithStr f ".js"))).map
            (fun p => JVal.str (toExportPath p))
    ∧ aget (createExportEntryFromOutputs outputFiles entryPath condition packageType false)
        "require"
      = ((group.files.find? (fun f => endsWithStr f ".cjs")).or
          (group.files.find? (fun f => endsWithStr f ".js"))).map
            (fun p => JVal.str (toExportPath p))
    ∧ aget (createExportEntryFromOutputs outputFiles entryPath condition packageType false)
        "default"
      = (aget (createExportEntryFromOutputs outputFiles entryPath condition packageType false)
          "import").or
        (aget (createExportEntryFromOutputs outputFiles entryPath condition packageType false)
          "require")
    ∧ (sortDts ((classifyLoop group.files).1)).head?
      = (group.files.find? (fun f => endsWithStr f ".d.ts")).or
          ((group.files.find? (fun f => endsWithStr f ".d.mts")).or
            (group.files.find? (fun f => endsWithStr f ".d.cts"))) := by
  have hred : createExportEntryFromOutputs outputFiles entryPath condition packageType false
      = (let imp := ((group.files.find? (fun f => endsWithStr f ".mjs")).or
            (group.files.find? (fun f => endsWithStr f ".js"))).map toExportPath
         let req := ((group.files.find? (fun f => endsWithStr f ".cjs")).or
            (group.files.find? (fun f => endsWithStr f ".js"))).map toExportPath
         let dflt := match imp with | some i => some i | none => req
         optField "import" imp ++ optField "require" req ++ optField "default" dflt) := by
    simp only [createExportEntryFromOutputs, hgrp, classifyLoop_eq, Bool.false_eq_true,
      if_false]
    rw [if_neg hpt]
    rw [match_head_or, match_head_or]
  refine ⟨?_, ?_, ?_, ?_, ?_⟩
  · simp only [hred]
    exact aget_optFields_types _ _ _
  · simp only [hred]
    rw [aget_optFields_import, Option.map_map]
    rfl
  · simp only [hred]
    rw [aget_optFields_require, Option.map_map]
    rfl
  · simp only [hred]
    rw [aget_optFields_default, aget_optFields_import, aget_optFields_require]
    rcases (group.files.find? (fun f => endsWithStr f ".mjs")).or
        (group.files.find? (fun f => endsWithStr f ".js")) with _ | i <;>
      rcases (group.files.find? (fun f => endsWithStr f ".cjs")).or
        (group.files.find? (fun f => endsWithStr f ".js")) with _ | r <;>
      simp [Option.or]
  · rw [classifyLoop_eq]
    show (sortDts (group.files.filter (fun f => isDtsFile f))).head? = _
    rw [show sortDts (group.files.filter (fun f => isDtsFile f))
        = stableSort (fun a b => dtsRank a < dtsRank b)
            (group.files.filter (fun f => isDtsFile f)) from rfl]
    rw [stableSort_head dtsRank]
    rw [minFirstBy_dtsRank_chain _
      (fun x hx => dtsRank_le_two x (List.mem_filter.mp hx).2)]
    rw [find_filter_of_imp _ _ _ (fun x hx => by simp [isDtsFile, hx]),
      find_filter_of_imp _ _ _ (fun x hx => by simp [isDtsFile, hx]),
      find_filter_of_imp _ _ _ (fun x hx => by simp [isDtsFile, hx])]

/-- Counterexample to C1 as stated: for a `commonjs` package with both
`.mjs` and `.cjs` outputs, `default` is set to the `require` value even
though the ESM value exists. -/
theorem c1_export_entry_selection_counterexample :
    createExportEntryFromOutputs
        [("./src/index.ts-\x7b\x7d",
          ⟨"./src/index.ts", "\x7b\x7d", ["dist/index.mjs", "dist/index.cjs"]⟩)]
        "./src/index.ts" "\x7b\x7d" (some "commonjs") false
      = [("import", JVal.str "./dist/index.mjs"), ("require", JVal.str "./dist/index.cjs"),
         ("default", JVal.str "./dist/index.cjs")]
    ∧ ("./dist/index.cjs" : String) ≠ "./dist/index.mjs" :=
  ⟨rfl, by decide⟩

/-- Witness for the amended C1 at a concrete output group with both formats
and a declaration file. -/
theorem c1_export_entry_selection_amended_witness :
    aget (createExportEntryFromOutputs
        [("./src/index.ts-\x7b\x7d",
          ⟨"./src/index.ts", "\x7b\x7d",
            ["dist/index.d.ts", "dist/index.mjs", "dist/index.cjs"]⟩)]
        "./src/index.ts" "\x7b\x7d" none false) "default"
      = (aget (createExportEntryFromOutputs
          [("./src/index.ts-\x7b\x7d",
            ⟨"./src/index.ts", "\x7b\x7d",
              ["dist/index.d.ts", "dist/index.mjs", "dist/index.cjs"]⟩)]
          "./src/index.ts" "\x7b\x7d" none false) "import").or
        (aget (createExportEntryFromOutputs
          [("./src/index.ts-\x7b\x7d",
            ⟨"./src/index.ts", "\x7b\x7d",
              ["dist/index.d.ts", "dist/index.mjs", "dist/index.cjs"]⟩)]
          "./src/index.ts" "\x7b\x7d" none false) "require") :=
  (c1_export_entry_selection_amended
    [("./src/index.ts-\x7b\x7d",
      ⟨"./src/index.ts", "\x7b\x7d",
        ["dist/index.d.ts", "dist/index.mjs", "dist/index.cjs"]⟩)]
    "./src/index.ts" "\x7b\x7d" none
    ⟨"./src/index.ts", "\x7b\x7d", ["dist/index.d.ts", "dist/index.mjs", "dist/index.cjs"]⟩
    rfl (by decide)).2.2.2.1
